import Mathlib

/-!
# Verification of the `maple_price_bot` pricing engine (`pricing_engine.py`)

This file gives a shallow embedding, over exact rational arithmetic, of the
expected-cost estimator of the repository:

* the fixed reinforcement (Star Force) transition table `STAR_PROBS`;
* the dense Gauss-Jordan linear solver `solve_linear_system` with partial
  pivoting and the `1e-12` pivot threshold (fallible code becomes `Option`);
* the reinforcement cost estimator `expected_star_cost` (linear system build,
  missing-price check, boundary handling of the start level);
* the quality (potential) estimator `expected_potential_cost_dual` with its
  cheaper-per-step choice among the two main tools and the optional bonus tool.

Python floats are modelled as `ℚ` (the spec describes the algorithms over exact
arithmetic); Python's `float("inf")` result for a negative start level is
modelled as `⊤ : WithTop ℚ`; fallible functions return `Option` / `Except`.
-/

/-! ## Small list helpers (indexed access through `List.getD`) -/

/-- Indexed map, starting the index at `k`.  `mapIdxFrom f 0` mirrors a Python
loop `for j, v in enumerate(xs)` that rebuilds the list. -/
def mapIdxFrom {α : Type} (f : ℕ → α → α) : ℕ → List α → List α
  | _, [] => []
  | k, a :: as => f k a :: mapIdxFrom f (k + 1) as

theorem mapIdxFrom_length {α : Type} (f : ℕ → α → α) (k : ℕ) (l : List α) :
    (mapIdxFrom f k l).length = l.length := by
  induction l generalizing k with
  | nil => rfl
  | cons a as ih => simp [mapIdxFrom, ih]

theorem mapIdxFrom_getD {α : Type} (f : ℕ → α → α) (k : ℕ) (l : List α)
    (i : ℕ) (d : α) (hi : i < l.length) :
    (mapIdxFrom f k l).getD i d = f (k + i) (l.getD i d) := by
  induction l generalizing k i with
  | nil => simp at hi
  | cons a as ih =>
    cases i with
    | zero => simp [mapIdxFrom]
    | succ n =>
      simp only [mapIdxFrom, List.getD_cons_succ]
      rw [ih]
      · ring_nf
      · simpa using hi

theorem mapIdxFrom_getD_ge {α : Type} (f : ℕ → α → α) (k : ℕ) (l : List α)
    (i : ℕ) (d : α) (hi : l.length ≤ i) :
    (mapIdxFrom f k l).getD i d = d := by
  apply List.getD_eq_default
  rwa [mapIdxFrom_length]

theorem getD_set {α : Type} (l : List α) (i j : ℕ) (a : α) (d : α) :
    (l.set i a).getD j d =
      if i = j ∧ j < l.length then a else l.getD j d := by
  induction l generalizing i j with
  | nil => simp
  | cons b bs ih =>
    cases i with
    | zero =>
      cases j with
      | zero => simp
      | succ m => simp [Nat.succ_ne_zero]
    | succ n =>
      cases j with
      | zero => simp
      | succ m =>
        simp only [List.set_cons_succ, List.getD_cons_succ, ih]
        by_cases h : n = m ∧ m < bs.length
        · simp [h, h.1, h.2, Nat.succ_lt_succ h.2]
        · have : ¬(n + 1 = m + 1 ∧ m + 1 < bs.length + 1) := by
            intro hc
            exact h ⟨Nat.succ_injective hc.1, Nat.lt_of_succ_lt_succ hc.2⟩
          simp only [List.length_cons, if_neg h, if_neg this]

theorem getD_map_fn {α β : Type} (f : α → β) (l : List α) (i : ℕ) (d : α) (d' : β)
    (hi : i < l.length) :
    (l.map f).getD i d' = f (l.getD i d) := by
  rw [List.getD_eq_getElem _ _ (by simpa using hi), List.getD_eq_getElem _ _ hi]
  simp

/-! ## The fixed reinforcement transition table

`STAR_PROBS` from `pricing_engine.py`: row `i` is the transition for the
attempt `i → i+1`.  Fields: `succ` (success), `keep` (stay), `drop` (to `i-1`),
`boom` (reset to the anchor level 10).  Values are the source's decimals,
written as exact rationals. -/

structure StarRow where
  succ : ℚ
  keep : ℚ
  drop : ℚ
  boom : ℚ
deriving DecidableEq, Repr

def STAR_PROBS : List StarRow := [
  ⟨9975/10000, 25/10000,    0,         0⟩,           -- 0->1
  ⟨9450/10000, 550/10000,   0,         0⟩,           -- 1->2
  ⟨8925/10000, 1075/10000,  0,         0⟩,           -- 2->3
  ⟨8925/10000, 1075/10000,  0,         0⟩,           -- 3->4
  ⟨8400/10000, 1600/10000,  0,         0⟩,           -- 4->5
  ⟨7875/10000, 2125/10000,  0,         0⟩,           -- 5->6
  ⟨7350/10000, 2650/10000,  0,         0⟩,           -- 6->7
  ⟨6825/10000, 3175/10000,  0,         0⟩,           -- 7->8
  ⟨6300/10000, 3700/10000,  0,         0⟩,           -- 8->9
  ⟨5775/10000, 4225/10000,  0,         0⟩,           -- 9->10
  ⟨5250/10000, 4750/10000,  0,         0⟩,           -- 10->11
  ⟨4725/10000, 0,           5275/10000, 0⟩,          -- 11->12
  ⟨4200/10000, 0,           5742/10000, 58/10000⟩,   -- 12->13
  ⟨3675/10000, 0,           6198/10000, 126/10000⟩,  -- 13->14
  ⟨3150/10000, 0,           6713/10000, 137/10000⟩,  -- 14->15
  ⟨3150/10000, 6644/10000,  0,          206/10000⟩,  -- 15->16
  ⟨3150/10000, 0,           6644/10000, 206/10000⟩,  -- 16->17
  ⟨3150/10000, 0,           6644/10000, 206/10000⟩,  -- 17->18
  ⟨3150/10000, 0,           6576/10000, 274/10000⟩,  -- 18->19
  ⟨3150/10000, 0,           6576/10000, 274/10000⟩,  -- 19->20
  ⟨3150/10000, 6165/10000,  0,          685/10000⟩,  -- 20->21
  ⟨3150/10000, 0,           6165/10000, 685/10000⟩,  -- 21->22
  ⟨315/10000,  0,           7748/10000, 1937/10000⟩, -- 22->23
  ⟨210/10000,  0,           6853/10000, 2937/10000⟩, -- 23->24
  ⟨105/10000,  0,           5937/10000, 3958/10000⟩  -- 24->25
]

/-- The zero row returned by `P(i)` in the source for out-of-range indices. -/
def zeroRow : StarRow := ⟨0, 0, 0, 0⟩

/-- The source's `P(i)`: the table row, or all zeros outside `0 ≤ i < 25`.
(Indices are natural numbers here, so only the upper guard is live.) -/
def Pfun (table : List StarRow) (i : ℕ) : StarRow :=
  if i < table.length then table.getD i zeroRow else zeroRow

/-! ## The quality (potential) estimator -/

inductive Tier where
  | Rare | Epic | Unique | Legendary
deriving DecidableEq, Repr

/-- Position of a tier in the source's `TIERS_ORDER` list. -/
def Tier.idx : Tier → ℕ
  | .Rare => 0
  | .Epic => 1
  | .Unique => 2
  | .Legendary => 3

/-- Inverse lookup into `TIERS_ORDER` (only used at indices 0..3). -/
def tierOfIdx : ℕ → Tier
  | 0 => .Rare
  | 1 => .Epic
  | 2 => .Unique
  | _ => .Legendary

/-- `POTENTIAL_ODDS["red"]`.  The source's dict has no `Rare` key and is never
looked up at `Rare` (step targets start at `Epic`); we return 0 there. -/
def redOdds : Tier → ℚ
  | .Epic => 6/100
  | .Unique => 18/1000
  | .Legendary => 3/1000
  | .Rare => 0

/-- `POTENTIAL_ODDS["black"]`. -/
def blackOdds : Tier → ℚ
  | .Epic => 15/100
  | .Unique => 35/1000
  | .Legendary => 1/100
  | .Rare => 0

/-- `POTENTIAL_ODDS["bonus"]`. -/
def bonusOdds : Tier → ℚ
  | .Epic => 476/10000
  | .Unique => 196/10000
  | .Legendary => 5/1000
  | .Rare => 0

/-- `_steps_from`: the list of adjacent tier steps from `start_tier` to
`target_tier` (empty when `target ≤ start`).  The source builds the strings
`"A->B"` and later recovers `B` by splitting on `"->"`; we model a step
directly as the pair `(A, B)`. -/
def steps_from (start_tier target_tier : Tier) : List (Tier × Tier) :=
  let s := start_tier.idx
  let t := target_tier.idx
  if t ≤ s then []
  else (List.range' s (t - s)).map (fun i => (tierOfIdx i, tierOfIdx (i + 1)))

/-- Result of `expected_potential_cost_dual` (fields that carry data; the
`item_id`/`timeframe` pass-through strings are omitted).  A breakdown entry is
the source's tuple `(step, chosen_price, p_up)`. -/
structure PotentialDualResult where
  main_start_tier : Tier
  main_target_tier : Tier
  main_cost : Option ℚ
  main_breakdown : Option (List ((Tier × Tier) × ℚ × ℚ))
  bonus_start_tier : Option Tier
  bonus_target_tier : Option Tier
  bonus_cost : Option ℚ
  bonus_breakdown : Option (List ((Tier × Tier) × ℚ × ℚ))
deriving DecidableEq, Repr

/-- One step of the main-ladder fold: add the cheaper of the red/black
expected values and record the chosen tool's price and probability. -/
def mainStepFold (pr pb : ℚ) (acc : ℚ × List ((Tier × Tier) × ℚ × ℚ))
    (st : Tier × Tier) : ℚ × List ((Tier × Tier) × ℚ × ℚ) :=
  let p_r := redOdds st.2
  let p_b := blackOdds st.2
  let ev_r := pr / p_r
  let ev_b := pb / p_b
  if ev_r ≤ ev_b then (acc.1 + ev_r, acc.2 ++ [(st, pr, p_r)])
  else (acc.1 + ev_b, acc.2 ++ [(st, pb, p_b)])

/-- One step of the bonus-ladder fold. -/
def bonusStepFold (pbn : ℚ) (acc : ℚ × List ((Tier × Tier) × ℚ × ℚ))
    (st : Tier × Tier) : ℚ × List ((Tier × Tier) × ℚ × ℚ) :=
  let p := bonusOdds st.2
  (acc.1 + pbn / p, acc.2 ++ [(st, pbn, p)])

/-- The main-ladder accumulation (both interchangeable tool prices needed;
otherwise the whole main part is `none`). -/
def mainPartOf (price_red price_black : Option ℚ)
    (steps : List (Tier × Tier)) : Option (ℚ × List ((Tier × Tier) × ℚ × ℚ)) :=
  match price_red, price_black with
  | some pr, some pb => some (steps.foldl (mainStepFold pr pb) (0, []))
  | _, _ => none

/-- The bonus-ladder accumulation (needs the bonus tool price). -/
def bonusPartOf (price_bonus : Option ℚ)
    (steps : List (Tier × Tier)) : Option (ℚ × List ((Tier × Tier) × ℚ × ℚ)) :=
  match price_bonus with
  | some pbn => some (steps.foldl (bonusStepFold pbn) (0, []))
  | none => none

/-- `expected_potential_cost_dual` from the source.  Prices are the already
resolved cube prices (`None` = unavailable).  The source validates the
(capitalized) target-tier strings against `("Epic","Unique","Legendary")` and
raises `ValueError` otherwise; over our `Tier` type that check is `≠ Rare`. -/
def expected_potential_cost_dual (price_red price_black price_bonus : Option ℚ)
    (main_target_tier : Tier) (main_start_tier : Tier)
    (bonus_target_tier : Option Tier) (bonus_start_tier : Tier) :
    Except String PotentialDualResult :=
  if main_target_tier = .Rare then
    .error "main_target_tier must be Epic / Unique / Legendary"
  else
    match bonus_target_tier with
    | none =>
      .ok { main_start_tier := main_start_tier
            main_target_tier := main_target_tier
            main_cost := (mainPartOf price_red price_black
              (steps_from main_start_tier main_target_tier)).map Prod.fst
            main_breakdown := (mainPartOf price_red price_black
              (steps_from main_start_tier main_target_tier)).map Prod.snd
            bonus_start_tier := none
            bonus_target_tier := none
            bonus_cost := none
            bonus_breakdown := none }
    | some bt =>
      if bt = .Rare then
        .error "bonus_target_tier must be Epic / Unique / Legendary"
      else
        .ok { main_start_tier := main_start_tier
              main_target_tier := main_target_tier
              main_cost := (mainPartOf price_red price_black
                (steps_from main_start_tier main_target_tier)).map Prod.fst
              main_breakdown := (mainPartOf price_red price_black
                (steps_from main_start_tier main_target_tier)).map Prod.snd
              bonus_start_tier := some bonus_start_tier
              bonus_target_tier := some bt
              bonus_cost := (bonusPartOf price_bonus
                (steps_from bonus_start_tier bt)).map Prod.fst
              bonus_breakdown := (bonusPartOf price_bonus
                (steps_from bonus_start_tier bt)).map Prod.snd }

/-! ## The linear solver (`solve_linear_system`)

The source works on the augmented matrix `M = [A | b]` (rows of length `n+1`)
and does Gauss-Jordan elimination with partial pivoting: per column, pick the
largest-magnitude candidate pivot among rows `col..n-1`, fail if its magnitude
is below `1e-12`, swap it into place, divide the pivot row from position `col`
on, and eliminate the column from every other row.  Failure is `none`. -/

abbrev Mat := List (List ℚ)

/-- Entry `M[i][j]` (0 outside the stored data). -/
def entry (M : Mat) (i j : ℕ) : ℚ := (M.getD i []).getD j 0

/-- The pivot threshold `1e-12` of the source. -/
def pivThreshold : ℚ := 1 / 10 ^ 12

/-- `max(range(col, n), key=lambda r: abs(M[r][col]))`: the first index in
`col..n-1` whose entry in column `col` has maximal magnitude (Python's `max`
keeps the earliest maximum, so a later candidate replaces the current best
only when strictly greater). -/
def pivotIndex (M : Mat) (col n : ℕ) : ℕ :=
  (List.range' (col + 1) (n - (col + 1))).foldl
    (fun best r => if |entry M best col| < |entry M r col| then r else best)
    col

/-- `M[col], M[piv] = M[piv], M[col]`. -/
def swapRows (M : Mat) (i j : ℕ) : Mat :=
  (M.set i (M.getD j [])).set j (M.getD i [])

/-- `M[i][j] -= fac2 * M[col][j]` for `j = col..n` (the row has length `n+1`,
so this is every position from `col` on). -/
def subRow (ri rc : List ℚ) (fac2 : ℚ) (col : ℕ) : List ℚ :=
  mapIdxFrom (fun j v => if col ≤ j then v - fac2 * rc.getD j 0 else v) 0 ri

/-- `if piv != col: M[col], M[piv] = M[piv], M[col]`. -/
def swapPart (col piv : ℕ) (M : Mat) : Mat :=
  if piv = col then M else swapRows M col piv

/-- `fac = M[col][col]; for j in range(col, n+1): M[col][j] /= fac`. -/
def scalePart (col : ℕ) (M1 : Mat) : Mat :=
  M1.set col
    (mapIdxFrom (fun j v => if col ≤ j then v / entry M1 col col else v) 0
      (M1.getD col []))

/-- The inner loop: for every row `i != col` with `fac2 = M[i][col] != 0`,
subtract `fac2` times the (already normalized) pivot row. -/
def elimPart (col : ℕ) (M2 : Mat) : Mat :=
  mapIdxFrom
    (fun i ri =>
      if i = col then ri
      else
        if entry M2 i col = 0 then ri
        else subRow ri (M2.getD col []) (entry M2 i col) col)
    0 M2

/-- One iteration of the column loop of `solve_linear_system` (pivot search
and threshold test done by the caller): swap, normalize the pivot row,
eliminate the column from the other rows. -/
def elimStep (col piv : ℕ) (M : Mat) : Mat :=
  elimPart col (scalePart col (swapPart col piv M))

/-- The column loop, over the remaining list of column indices. -/
def elimCols (n : ℕ) (M : Mat) : List ℕ → Option Mat
  | [] => some M
  | col :: rest =>
    let piv := pivotIndex M col n
    if |entry M piv col| < pivThreshold then none
    else elimCols n (elimStep col piv M) rest

/-- `True` exactly when the elimination loop raises the numerical-instability
error: some encountered pivot has magnitude below `1e-12`. -/
def elimFails (n : ℕ) (M : Mat) : List ℕ → Bool
  | [] => false
  | col :: rest =>
    let piv := pivotIndex M col n
    if |entry M piv col| < pivThreshold then true
    else elimFails n (elimStep col piv M) rest

/-- `solve_linear_system(A, b)`: build the augmented matrix, run the column
loop, read off the last column.  `none` is the source's
`ValueError("Matrix is singular or ill-conditioned.")`. -/
def solve_linear_system (A : Mat) (b : List ℚ) : Option (List ℚ) :=
  let n := A.length
  let M := List.zipWith (fun row bi => row ++ [bi]) A b
  (elimCols n M (List.range n)).map (fun Mf => Mf.map (fun r => r.getD n 0))

/-- Whether `solve_linear_system(A, b)` hits a pivot of magnitude below
`1e-12` (and hence fails). -/
def solveFails (A : Mat) (b : List ℚ) : Bool :=
  elimFails A.length (List.zipWith (fun row bi => row ++ [bi]) A b)
    (List.range A.length)

/-! ## The reinforcement cost estimator (`expected_star_cost`) -/

/-- Errors of `expected_star_cost` (the source raises `ValueError` with
distinct messages; the `missingPrice` payload is the printed list of missing
step indices). -/
inductive StarErr where
  | invalidTarget : StarErr
  | missingPrice : List ℕ → StarErr
  | numericalInstability : StarErr
deriving DecidableEq, Repr

/-- Row `s` of the matrix `A` built by `expected_star_cost` for target `T`,
mirroring the statement order of the source, one statement per stage:
`A[s][s] = 1-keep`; `if s+1 < T: A[s][s+1] = -succ`;
`if s-1 >= 0: A[s][s-1] -= drop`; `if 10 < T: A[s][10] -= boom`. -/
def starRow1 (table : List StarRow) (T s : ℕ) : List ℚ :=
  (List.replicate T (0 : ℚ)).set s (1 - (Pfun table s).keep)

def starRow2 (table : List StarRow) (T s : ℕ) : List ℚ :=
  if s + 1 < T then (starRow1 table T s).set (s + 1) (-(Pfun table s).succ)
  else starRow1 table T s

def starRow3 (table : List StarRow) (T s : ℕ) : List ℚ :=
  if 1 ≤ s then
    (starRow2 table T s).set (s - 1)
      ((starRow2 table T s).getD (s - 1) 0 - (Pfun table s).drop)
  else starRow2 table T s

def starRow (table : List StarRow) (T s : ℕ) : List ℚ :=
  if 10 < T then
    (starRow3 table T s).set 10
      ((starRow3 table T s).getD 10 0 - (Pfun table s).boom)
  else starRow3 table T s

/-- The matrix `A` of the `T`-state system (states `0..T-1`). -/
def buildA (table : List StarRow) (T : ℕ) : Mat :=
  (List.range T).map (starRow table T)

/-- The right-hand side `b`: the per-level prices. -/
def buildB (T : ℕ) (prices : ℕ → Option ℚ) : List ℚ :=
  (List.range T).map (fun s => (prices s).getD 0)

/-- Result of `expected_star_cost`.  `E` is the solved expected-cost vector
(the source's local `E`, of which the returned scalars are projections);
`step_costs` is the price map passed through; `expected_cost_from_start` uses
`⊤ : WithTop ℚ` for the source's `float("inf")`. -/
structure StarCostResult where
  start_star : ℤ
  target_star : ℕ
  step_costs : ℕ → Option ℚ
  E : List ℚ
  expected_cost_from_0 : ℚ
  expected_cost_from_start : WithTop ℚ

/-- `expected_star_cost`, parametrized by the transition table (the source
reads the module-level constant `STAR_PROBS`; see `expected_star_cost`). -/
def expected_star_cost_table (table : List StarRow) (prices : ℕ → Option ℚ)
    (target_star : ℕ) (start_star : ℤ) : Except StarErr StarCostResult :=
  if target_star < 1 ∨ 25 < target_star then .error .invalidTarget
  else if ((List.range target_star).filter (fun s => (prices s).isNone)).isEmpty then
    match solve_linear_system (buildA table target_star)
        (buildB target_star prices) with
    | none => .error .numericalInstability
    | some E =>
      .ok { start_star := start_star
            target_star := target_star
            step_costs := prices
            E := E
            expected_cost_from_0 := E.getD 0 0
            expected_cost_from_start :=
              if 0 ≤ start_star ∧ start_star < (target_star : ℤ) then
                ((E.getD start_star.toNat 0 : ℚ) : WithTop ℚ)
              else if (target_star : ℤ) ≤ start_star then ((0 : ℚ) : WithTop ℚ)
              else ⊤ }
  else
    .error (.missingPrice
      ((List.range target_star).filter (fun s => (prices s).isNone)))

/-- `expected_star_cost` with the fixed table `STAR_PROBS`. -/
def expected_star_cost (prices : ℕ → Option ℚ) (target_star : ℕ)
    (start_star : ℤ) : Except StarErr StarCostResult :=
  expected_star_cost_table STAR_PROBS prices target_star start_star

/-! ## Solver correctness

`rowSat n r x` says the augmented row `r` (length `n+1`) is satisfied by the
candidate solution `x`: the dot product of its first `n` entries with `x`
equals its last entry.  Row swaps, pivot-row normalization and row
elimination all preserve the solution set, and after the full Gauss-Jordan
loop the matrix part is the identity, so the extracted last column solves the
original system. -/

def rowSat (n : ℕ) (r x : List ℚ) : Prop :=
  (∑ j ∈ Finset.range n, r.getD j 0 * x.getD j 0) = r.getD n 0

def satAll (n : ℕ) (M : Mat) (x : List ℚ) : Prop :=
  ∀ i, i < n → rowSat n (M.getD i []) x

theorem swapRows_length (M : Mat) (i j : ℕ) :
    (swapRows M i j).length = M.length := by
  simp [swapRows]

theorem swapRows_getD (M : Mat) (i j k : ℕ) (hi : i < M.length)
    (hj : j < M.length) :
    (swapRows M i j).getD k [] =
      if j = k then M.getD i []
      else if i = k then M.getD j [] else M.getD k [] := by
  unfold swapRows
  rw [getD_set, getD_set]
  simp only [List.length_set]
  by_cases hjk : j = k
  · subst hjk
    simp [hj]
  · by_cases hik : i = k
    · subst hik
      simp [hjk, hi]
    · simp [hjk, hik]

theorem swapRows_sat_iff (n : ℕ) (M : Mat) (i j : ℕ) (x : List ℚ)
    (hM : M.length = n) (hi : i < n) (hj : j < n) :
    satAll n (swapRows M i j) x ↔ satAll n M x := by
  have hget : ∀ k, (swapRows M i j).getD k [] =
      if j = k then M.getD i []
      else if i = k then M.getD j [] else M.getD k [] :=
    fun k => swapRows_getD M i j k (hM ▸ hi) (hM ▸ hj)
  constructor
  · intro h k hk
    by_cases hki : k = i
    · rw [hki]
      have hrow := h j hj
      rw [hget j, if_pos rfl] at hrow
      exact hrow
    · by_cases hkj : k = j
      · rw [hkj]
        have hrow := h i hi
        rw [hget i] at hrow
        by_cases hji : j = i
        · rw [if_pos hji] at hrow
          rw [hji]
          exact hrow
        · rw [if_neg hji, if_pos rfl] at hrow
          exact hrow
      · have hrow := h k hk
        rwa [hget k, if_neg (Ne.symm hkj), if_neg (Ne.symm hki)] at hrow
  · intro h k hk
    rw [hget k]
    by_cases hjk : j = k
    · rw [if_pos hjk]
      exact h i hi
    · by_cases hik : i = k
      · rw [if_neg hjk, if_pos hik]
        exact h j hj
      · rw [if_neg hjk, if_neg hik]
        exact h k hk

theorem rowSat_scale (n col : ℕ) (r x : List ℚ) (hlen : r.length = n + 1)
    (fac : ℚ) (hfac : fac ≠ 0)
    (hz : ∀ j, j < col → r.getD j 0 = 0) :
    rowSat n (mapIdxFrom (fun j v => if col ≤ j then v / fac else v) 0 r) x ↔
      rowSat n r x := by
  have hget : ∀ j, j ≤ n →
      (mapIdxFrom (fun j v => if col ≤ j then v / fac else v) 0 r).getD j 0 =
        r.getD j 0 / fac := by
    intro j hj
    rw [mapIdxFrom_getD _ _ _ _ _ (by omega)]
    simp only [Nat.zero_add]
    by_cases h : col ≤ j
    · rw [if_pos h]
    · rw [if_neg h, hz j (by omega)]
      simp
  unfold rowSat
  rw [hget n le_rfl]
  have hsum : (∑ j ∈ Finset.range n,
      (mapIdxFrom (fun j v => if col ≤ j then v / fac else v) 0 r).getD j 0 *
        x.getD j 0) =
      (∑ j ∈ Finset.range n, r.getD j 0 * x.getD j 0) / fac := by
    rw [Finset.sum_div]
    apply Finset.sum_congr rfl
    intro j hj
    rw [hget j (le_of_lt (Finset.mem_range.mp hj))]
    ring
  rw [hsum]
  constructor
  · intro h
    have h2 := congrArg (· * fac) h
    simpa [div_mul_cancel₀ _ hfac] using h2
  · intro h
    rw [h]

theorem rowSat_sub (n col : ℕ) (ri rc x : List ℚ) (hleni : ri.length = n + 1)
    (f : ℚ) (hz : ∀ j, j < col → rc.getD j 0 = 0)
    (hrc : rowSat n rc x) :
    rowSat n (subRow ri rc f col) x ↔ rowSat n ri x := by
  have hget : ∀ j, j ≤ n →
      (subRow ri rc f col).getD j 0 = ri.getD j 0 - f * rc.getD j 0 := by
    intro j hj
    unfold subRow
    rw [mapIdxFrom_getD _ _ _ _ _ (by omega)]
    simp only [Nat.zero_add]
    by_cases h : col ≤ j
    · rw [if_pos h]
    · rw [if_neg h, hz j (by omega)]
      ring
  unfold rowSat
  rw [hget n le_rfl]
  have hsum : (∑ j ∈ Finset.range n, (subRow ri rc f col).getD j 0 * x.getD j 0) =
      (∑ j ∈ Finset.range n, ri.getD j 0 * x.getD j 0) -
        f * (∑ j ∈ Finset.range n, rc.getD j 0 * x.getD j 0) := by
    rw [Finset.mul_sum, ← Finset.sum_sub_distrib]
    apply Finset.sum_congr rfl
    intro j hj
    rw [hget j (le_of_lt (Finset.mem_range.mp hj))]
    ring
  rw [hsum, hrc]
  constructor
  · intro h
    have := congrArg (· + f * rc.getD n 0) h
    simpa using this
  · intro h
    rw [h]


theorem swapPart_spec (n col piv : ℕ) (M : Mat) (hM : M.length = n)
    (hrows : ∀ i, i < n → (M.getD i []).length = n + 1)
    (hcol : col < n) (hpl : col ≤ piv) (hpn : piv < n)
    (hinv : ∀ i, i < n → ∀ j, j < col → entry M i j = if i = j then 1 else 0) :
    (swapPart col piv M).length = n ∧
    (∀ i, i < n → ((swapPart col piv M).getD i []).length = n + 1) ∧
    (∀ i, i < n → ∀ j, j < col →
      entry (swapPart col piv M) i j = if i = j then 1 else 0) ∧
    entry (swapPart col piv M) col col = entry M piv col ∧
    (∀ x, satAll n (swapPart col piv M) x ↔ satAll n M x) := by
  unfold swapPart
  by_cases h : piv = col
  · rw [if_pos h, h]
    exact ⟨hM, hrows, hinv, rfl, fun _ => Iff.rfl⟩
  · rw [if_neg h]
    have hget : ∀ k, (swapRows M col piv).getD k [] =
        if piv = k then M.getD col []
        else if col = k then M.getD piv [] else M.getD k [] :=
      fun k => swapRows_getD M col piv k (hM ▸ hcol) (hM ▸ hpn)
    refine ⟨by rw [swapRows_length]; exact hM, ?_, ?_, ?_, ?_⟩
    · intro i hi
      rw [hget i]
      by_cases h1 : piv = i
      · rw [if_pos h1]; exact hrows col hcol
      · rw [if_neg h1]
        by_cases h2 : col = i
        · rw [if_pos h2]; exact hrows piv hpn
        · rw [if_neg h2]; exact hrows i hi
    · intro i hi j hj
      unfold entry
      rw [hget i]
      by_cases h1 : piv = i
      · rw [if_pos h1]
        have hc := hinv col hcol j hj
        unfold entry at hc
        rw [hc, if_neg (by omega), if_neg (by omega)]
      · rw [if_neg h1]
        by_cases h2 : col = i
        · rw [if_pos h2]
          have hc := hinv piv hpn j hj
          unfold entry at hc
          rw [hc, if_neg (by omega), if_neg (by omega)]
        · rw [if_neg h2]
          exact hinv i hi j hj
    · unfold entry
      rw [hget col, if_neg h, if_pos rfl]
    · intro x
      exact swapRows_sat_iff n M col piv x hM hcol hpn

theorem scalePart_spec (n col : ℕ) (M1 : Mat) (hM : M1.length = n)
    (hrows : ∀ i, i < n → ((M1.getD i []).length = n + 1))
    (hcol : col < n)
    (hinv : ∀ i, i < n → ∀ j, j < col → entry M1 i j = if i = j then 1 else 0)
    (hne : entry M1 col col ≠ 0) :
    (scalePart col M1).length = n ∧
    (∀ i, i < n → ((scalePart col M1).getD i []).length = n + 1) ∧
    (∀ i, i < n → ∀ j, j < col →
      entry (scalePart col M1) i j = if i = j then 1 else 0) ∧
    entry (scalePart col M1) col col = 1 ∧
    (∀ i, i < n → i ≠ col → (scalePart col M1).getD i [] = M1.getD i []) ∧
    (∀ x, satAll n (scalePart col M1) x ↔ satAll n M1 x) := by
  have hrclen :
      (mapIdxFrom (fun j v => if col ≤ j then v / entry M1 col col else v) 0
        (M1.getD col [])).length = n + 1 := by
    rw [mapIdxFrom_length]
    exact hrows col hcol
  have hrcget : ∀ j, j ≤ n →
      (mapIdxFrom (fun j v => if col ≤ j then v / entry M1 col col else v) 0
        (M1.getD col [])).getD j 0 =
        if col ≤ j then entry M1 col j / entry M1 col col else entry M1 col j := by
    intro j hj
    rw [mapIdxFrom_getD _ _ _ _ _ (by rw [hrows col hcol]; omega)]
    simp only [Nat.zero_add]
    rfl
  have hgetrow : ∀ i, (scalePart col M1).getD i [] =
      if col = i ∧ i < M1.length then
        mapIdxFrom (fun j v => if col ≤ j then v / entry M1 col col else v) 0
          (M1.getD col [])
      else M1.getD i [] := by
    intro i
    unfold scalePart
    rw [getD_set]
  refine ⟨by unfold scalePart; rw [List.length_set]; exact hM, ?_, ?_, ?_, ?_, ?_⟩
  · intro i hi
    rw [hgetrow i]
    by_cases h : col = i ∧ i < M1.length
    · rw [if_pos h]; exact hrclen
    · rw [if_neg h]; exact hrows i hi
  · intro i hi j hj
    unfold entry
    rw [hgetrow i]
    by_cases h : col = i ∧ i < M1.length
    · obtain ⟨hci, hil⟩ := h
      rw [if_pos ⟨hci, hil⟩, hrcget j (by omega), if_neg (by omega)]
      have hc := hinv col hcol j hj
      rw [hc, if_neg (by omega), if_neg (by omega)]
    · rw [if_neg h]
      exact hinv i hi j hj
  · unfold entry
    rw [hgetrow col, if_pos ⟨rfl, hM ▸ hcol⟩, hrcget col (by omega), if_pos le_rfl]
    exact div_self hne
  · intro i hi hne2
    rw [hgetrow i, if_neg (fun hc => hne2 hc.1.symm)]
  · intro x
    have hscale := rowSat_scale n col (M1.getD col []) x (hrows col hcol)
      (entry M1 col col) hne
      (fun j hj => by
        have hc := hinv col hcol j hj
        unfold entry at hc
        rw [hc, if_neg (by omega)])
    constructor
    · intro h i hi
      by_cases hic : i = col
      · subst hic
        have hr := h i hi
        rw [hgetrow i, if_pos ⟨rfl, hM ▸ hi⟩] at hr
        exact hscale.mp hr
      · have hr := h i hi
        rwa [hgetrow i, if_neg (fun hc => hic hc.1.symm)] at hr
    · intro h i hi
      by_cases hic : i = col
      · subst hic
        rw [hgetrow i, if_pos ⟨rfl, hM ▸ hi⟩]
        exact hscale.mpr (h i hi)
      · rw [hgetrow i, if_neg (fun hc => hic hc.1.symm)]
        exact h i hi

theorem elimPart_spec (n col : ℕ) (M2 : Mat) (hM : M2.length = n)
    (hrows : ∀ i, i < n → ((M2.getD i []).length = n + 1))
    (hcol : col < n)
    (hinv : ∀ i, i < n → ∀ j, j < col → entry M2 i j = if i = j then 1 else 0)
    (hcc : entry M2 col col = 1) :
    (elimPart col M2).length = n ∧
    (∀ i, i < n → ((elimPart col M2).getD i []).length = n + 1) ∧
    (∀ i, i < n → ∀ j, j < col + 1 →
      entry (elimPart col M2) i j = if i = j then 1 else 0) ∧
    (∀ x, satAll n (elimPart col M2) x ↔ satAll n M2 x) := by
  have hrcz : ∀ j, j < col → (M2.getD col []).getD j 0 = 0 := by
    intro j hj
    have hc := hinv col hcol j hj
    unfold entry at hc
    rw [hc, if_neg (by omega)]
  have hgetrow : ∀ i, i < n → (elimPart col M2).getD i [] =
      if i = col then M2.getD i []
      else
        if entry M2 i col = 0 then M2.getD i []
        else subRow (M2.getD i []) (M2.getD col []) (entry M2 i col) col := by
    intro i hi
    unfold elimPart
    rw [mapIdxFrom_getD _ _ _ _ _ (by omega)]
    simp only [Nat.zero_add]
  have hsublen : ∀ i f, (subRow (M2.getD i []) (M2.getD col []) f col).length =
      (M2.getD i []).length := by
    intro i f
    unfold subRow
    rw [mapIdxFrom_length]
  refine ⟨by unfold elimPart; rw [mapIdxFrom_length]; exact hM, ?_, ?_, ?_⟩
  · intro i hi
    rw [hgetrow i hi]
    by_cases h1 : i = col
    · rw [if_pos h1]; exact hrows i hi
    · rw [if_neg h1]
      by_cases h2 : entry M2 i col = 0
      · rw [if_pos h2]; exact hrows i hi
      · rw [if_neg h2, hsublen]; exact hrows i hi
  · intro i hi j hj
    have hsubget : ∀ f, (subRow (M2.getD i []) (M2.getD col []) f col).getD j 0 =
        if col ≤ j then entry M2 i j - f * entry M2 col j else entry M2 i j := by
      intro f
      unfold subRow
      rw [mapIdxFrom_getD _ _ _ _ _ (by rw [hrows i hi]; omega)]
      simp only [Nat.zero_add]
      rfl
    unfold entry
    rw [hgetrow i hi]
    by_cases h1 : i = col
    · subst h1
      by_cases h2 : j = i
      · subst h2
        have hcc2 := hcc
        unfold entry at hcc2
        rw [if_pos rfl, hcc2, if_pos rfl]
      · rw [if_pos rfl]
        have hc := hinv i hi j (by omega)
        unfold entry at hc
        exact hc
    · rw [if_neg h1]
      by_cases h2 : entry M2 i col = 0
      · rw [if_pos h2]
        by_cases h3 : j = col
        · subst h3
          have h4 := h2
          unfold entry at h4
          rw [h4, if_neg h1]
        · have hc := hinv i hi j (by omega)
          unfold entry at hc
          rw [hc]
      · rw [if_neg h2, hsubget]
        by_cases h3 : j = col
        · subst h3
          rw [if_pos le_rfl, hcc, if_neg h1]
          ring
        · have hj2 : j < col := by omega
          rw [if_neg (by omega)]
          have hc := hinv i hi j hj2
          rw [hc]
  · intro x
    constructor
    · intro h i hi
      have hpivsat : rowSat n (M2.getD col []) x := by
        have hr := h col hcol
        rwa [hgetrow col hcol, if_pos rfl] at hr
      by_cases h1 : i = col
      · subst h1; exact hpivsat
      · have hr := h i hi
        rw [hgetrow i hi, if_neg h1] at hr
        by_cases h2 : entry M2 i col = 0
        · rwa [if_pos h2] at hr
        · rw [if_neg h2] at hr
          exact (rowSat_sub n col (M2.getD i []) (M2.getD col []) x
            (hrows i hi) (entry M2 i col) hrcz hpivsat).mp hr
    · intro h i hi
      have hpivsat : rowSat n (M2.getD col []) x := h col hcol
      rw [hgetrow i hi]
      by_cases h1 : i = col
      · rw [if_pos h1]; exact h i hi
      · rw [if_neg h1]
        by_cases h2 : entry M2 i col = 0
        · rw [if_pos h2]; exact h i hi
        · rw [if_neg h2]
          exact (rowSat_sub n col (M2.getD i []) (M2.getD col []) x
            (hrows i hi) (entry M2 i col) hrcz hpivsat).mpr (h i hi)

/-- Combined effect of one full column step. -/
theorem elimStep_spec (n col piv : ℕ) (M : Mat) (hM : M.length = n)
    (hrows : ∀ i, i < n → (M.getD i []).length = n + 1)
    (hcol : col < n) (hpl : col ≤ piv) (hpn : piv < n)
    (hinv : ∀ i, i < n → ∀ j, j < col → entry M i j = if i = j then 1 else 0)
    (hfac : entry M piv col ≠ 0) :
    (elimStep col piv M).length = n ∧
    (∀ i, i < n → ((elimStep col piv M).getD i []).length = n + 1) ∧
    (∀ i, i < n → ∀ j, j < col + 1 →
      entry (elimStep col piv M) i j = if i = j then 1 else 0) ∧
    (∀ x, satAll n (elimStep col piv M) x ↔ satAll n M x) := by
  obtain ⟨h1len, h1row, h1inv, h1fac, h1sat⟩ :=
    swapPart_spec n col piv M hM hrows hcol hpl hpn hinv
  have h1ne : entry (swapPart col piv M) col col ≠ 0 := by
    rw [h1fac]; exact hfac
  obtain ⟨h2len, h2row, h2inv, h2cc, _h2other, h2sat⟩ :=
    scalePart_spec n col (swapPart col piv M) h1len h1row hcol h1inv h1ne
  obtain ⟨h3len, h3row, h3inv, h3sat⟩ :=
    elimPart_spec n col (scalePart col (swapPart col piv M)) h2len h2row hcol
      h2inv h2cc
  have hes : elimStep col piv M =
      elimPart col (scalePart col (swapPart col piv M)) := rfl
  rw [hes]
  exact ⟨h3len, h3row, h3inv, fun x => (h3sat x).trans ((h2sat x).trans (h1sat x))⟩

/-- The pivot the source's `max(range(col, n), ...)` picks lies in `[col, n)`. -/
theorem pivotIndex_range (M : Mat) (col n : ℕ) (h : col < n) :
    col ≤ pivotIndex M col n ∧ pivotIndex M col n < n := by
  unfold pivotIndex
  have hgen : ∀ (l : List ℕ) (b : ℕ), col ≤ b → b < n → (∀ r ∈ l, col ≤ r ∧ r < n) →
      col ≤ l.foldl
        (fun best r => if |entry M best col| < |entry M r col| then r else best) b ∧
      l.foldl
        (fun best r => if |entry M best col| < |entry M r col| then r else best) b < n := by
    intro l
    induction l with
    | nil => intro b hb1 hb2 _; exact ⟨hb1, hb2⟩
    | cons a as ih =>
      intro b hb1 hb2 hmem
      simp only [List.foldl_cons]
      by_cases hc : |entry M b col| < |entry M a col|
      · rw [if_pos hc]
        exact ih a (hmem a (List.mem_cons_self a as)).1
          (hmem a (List.mem_cons_self a as)).2
          (fun r hr => hmem r (List.mem_cons_of_mem a hr))
      · rw [if_neg hc]
        exact ih b hb1 hb2 (fun r hr => hmem r (List.mem_cons_of_mem a hr))
  apply hgen
  · exact le_rfl
  · exact h
  · intro r hr
    rw [List.mem_range'_1] at hr
    omega

/-- The column loop fails exactly when it meets a pivot below the threshold. -/
theorem elimCols_none_iff_fails (n : ℕ) (cols : List ℕ) :
    ∀ M, elimCols n M cols = none ↔ elimFails n M cols = true := by
  induction cols with
  | nil => intro M; simp [elimCols, elimFails]
  | cons c rest ih =>
    intro M
    simp only [elimCols, elimFails]
    by_cases h : |entry M (pivotIndex M c n) c| < pivThreshold
    · simp [h]
    · simp only [if_neg h]
      exact ih _

/-- Running the loop over columns `c..n-1` of a matrix whose first `c` columns
are already reduced to the identity: on success the whole left block is the
identity and the solution set is unchanged. -/
theorem elimCols_spec (n : ℕ) :
    ∀ (k c : ℕ) (M : Mat), c + k = n → M.length = n →
    (∀ i, i < n → (M.getD i []).length = n + 1) →
    (∀ i, i < n → ∀ j, j < c → entry M i j = if i = j then 1 else 0) →
    ∀ Mf, elimCols n M (List.range' c k) = some Mf →
      Mf.length = n ∧ (∀ i, i < n → ((Mf.getD i []).length = n + 1)) ∧
      (∀ i, i < n → ∀ j, j < n → entry Mf i j = if i = j then 1 else 0) ∧
      (∀ x, satAll n Mf x ↔ satAll n M x) := by
  intro k
  induction k with
  | zero =>
    intro c M hc hlen hrows hinv Mf hMf
    have : List.range' c 0 = [] := rfl
    rw [this] at hMf
    simp only [elimCols, Option.some_inj] at hMf
    subst hMf
    exact ⟨hlen, hrows, fun i hi j hj => hinv i hi j (by omega),
      fun x => Iff.rfl⟩
  | succ k ih =>
    intro c M hc hlen hrows hinv Mf hMf
    have hcol : c < n := by omega
    rw [List.range'_succ] at hMf
    simp only [elimCols] at hMf
    by_cases h : |entry M (pivotIndex M c n) c| < pivThreshold
    · rw [if_pos h] at hMf
      exact absurd hMf (by simp)
    · rw [if_neg h] at hMf
      obtain ⟨hp1, hp2⟩ := pivotIndex_range M c n hcol
      have hfac : entry M (pivotIndex M c n) c ≠ 0 := by
        intro h0
        apply h
        rw [h0]
        simp only [abs_zero]
        unfold pivThreshold
        norm_num
      obtain ⟨hslen, hsrows, hsinv, hssat⟩ :=
        elimStep_spec n c (pivotIndex M c n) M hlen hrows hcol hp1 hp2 hinv hfac
      obtain ⟨hflen, hfrows, hfinv, hfsat⟩ :=
        ih (c + 1) (elimStep c (pivotIndex M c n) M) (by omega) hslen hsrows
          (fun i hi j hj => hsinv i hi j (by omega)) Mf hMf
      exact ⟨hflen, hfrows, hfinv, fun x => (hfsat x).trans (hssat x)⟩

/-- The augmented matrix `[A | b]` the source builds. -/
def augment (A : Mat) (b : List ℚ) : Mat :=
  List.zipWith (fun row bi => row ++ [bi]) A b

theorem augment_getD : ∀ (A : Mat) (b : List ℚ) (i : ℕ), i < A.length →
    i < b.length →
    (augment A b).getD i [] = (A.getD i []) ++ [b.getD i 0]
  | [], _, i, hi, _ => absurd hi (by simp)
  | _ :: _, [], _, _, hb => absurd hb (by simp)
  | r :: rs, v :: vs, 0, _, _ => rfl
  | r :: rs, v :: vs, i + 1, hi, hb => by
    simp only [augment, List.zipWith_cons_cons, List.getD_cons_succ]
    exact augment_getD rs vs i (by simpa using hi) (by simpa using hb)

/-- Correctness of `solve_linear_system` on square systems: when no pivot of
magnitude below `1e-12` is met it returns a vector that satisfies every row
equation of `A·x = b` exactly; when such a pivot is met it fails. -/
theorem solve_linear_system_spec (A : Mat) (b : List ℚ)
    (hsq : ∀ r ∈ A, r.length = A.length) (hb : b.length = A.length) :
    (solveFails A b = false →
      ∃ x, solve_linear_system A b = some x ∧ x.length = A.length ∧
        ∀ i, i < A.length →
          (∑ j ∈ Finset.range A.length, entry A i j * x.getD j 0) =
            b.getD i 0) ∧
    (solveFails A b = true → solve_linear_system A b = none) := by
  have hsolve : solve_linear_system A b =
      (elimCols A.length (augment A b) (List.range A.length)).map
        (fun Mf => Mf.map (fun r => r.getD A.length 0)) := rfl
  have hfails : solveFails A b =
      elimFails A.length (augment A b) (List.range A.length) := rfl
  have hrowlen : ∀ i, i < A.length → (A.getD i []).length = A.length := by
    intro i hi
    rw [List.getD_eq_getElem _ _ hi]
    exact hsq _ (List.getElem_mem hi)
  have hauglen : (augment A b).length = A.length := by
    unfold augment
    rw [List.length_zipWith, hb, Nat.min_self]
  have haugrow : ∀ i, i < A.length →
      ((augment A b).getD i []).length = A.length + 1 := by
    intro i hi
    rw [augment_getD A b i hi (hb ▸ hi), List.length_append, hrowlen i hi]
    rfl
  constructor
  · intro hok
    have hnone : elimCols A.length (augment A b) (List.range A.length) ≠ none := by
      intro hc
      rw [elimCols_none_iff_fails] at hc
      rw [hfails] at hok
      rw [hc] at hok
      simp at hok
    obtain ⟨Mf, hMf⟩ := Option.ne_none_iff_exists'.mp hnone
    have hMf' : elimCols A.length (augment A b) (List.range' 0 A.length) =
        some Mf := by
      rwa [← List.range_eq_range']
    obtain ⟨hflen, hfrows, hfid, hfsat⟩ :=
      elimCols_spec A.length A.length 0 (augment A b) (Nat.zero_add _) hauglen
        haugrow (fun i _ j hj => absurd hj (Nat.not_lt_zero j)) Mf hMf'
    refine ⟨Mf.map (fun r => r.getD A.length 0), ?_, ?_, ?_⟩
    · rw [hsolve, hMf]
      rfl
    · rw [List.length_map, hflen]
    · -- the extracted last column satisfies the final (identity) system
      have hxget : ∀ i, i < A.length →
          (Mf.map (fun r => r.getD A.length 0)).getD i 0 =
            (Mf.getD i []).getD A.length 0 := by
        intro i hi
        exact getD_map_fn _ Mf i [] 0 (by omega)
      have hsatf : satAll A.length Mf (Mf.map (fun r => r.getD A.length 0)) := by
        intro i hi
        unfold rowSat
        have hterm : ∀ j, j ∈ Finset.range A.length →
            (Mf.getD i []).getD j 0 *
                (Mf.map (fun r => r.getD A.length 0)).getD j 0 =
              if i = j then (Mf.map (fun r => r.getD A.length 0)).getD j 0
              else 0 := by
          intro j hj
          have hf := hfid i hi j (Finset.mem_range.mp hj)
          unfold entry at hf
          rw [hf]
          by_cases h : i = j
          · rw [if_pos h, if_pos h, one_mul]
          · rw [if_neg h, if_neg h, zero_mul]
        rw [Finset.sum_congr rfl hterm, Finset.sum_ite_eq,
          if_pos (Finset.mem_range.mpr hi), hxget i hi]
      have hsat0 : satAll A.length (augment A b)
          (Mf.map (fun r => r.getD A.length 0)) := (hfsat _).mp hsatf
      intro i hi
      have hrow := hsat0 i hi
      unfold rowSat at hrow
      rw [augment_getD A b i hi (hb ▸ hi)] at hrow
      rw [List.getD_append_right _ _ _ _ (by rw [hrowlen i hi])] at hrow
      rw [hrowlen i hi, Nat.sub_self] at hrow
      have hsum : ∀ j, j ∈ Finset.range A.length →
          ((A.getD i []) ++ [b.getD i 0]).getD j 0 *
            (Mf.map (fun r => r.getD A.length 0)).getD j 0 =
          entry A i j * (Mf.map (fun r => r.getD A.length 0)).getD j 0 := by
        intro j hj
        rw [List.getD_append _ _ _ _
          (by rw [hrowlen i hi]; exact Finset.mem_range.mp hj)]
        rfl
      rw [Finset.sum_congr rfl hsum] at hrow
      simpa using hrow
  · intro hbad
    have h1 : elimCols A.length (augment A b) (List.range A.length) = none :=
      (elimCols_none_iff_fails A.length (List.range A.length)
        (augment A b)).mpr (hfails ▸ hbad)
    rw [hsolve, h1]
    rfl

/-! ## Pivot behaviour is independent of the right-hand side

The pivot searches and threshold tests of the elimination only ever read
columns `0..n-1`, and each update to those columns only reads those columns,
so whether the loop fails does not depend on column `n` (the `b` column). -/

/-- Agreement of two augmented matrices on the matrix block (columns `< n`). -/
def agreeBelow (n : ℕ) (M N : Mat) : Prop :=
  M.length = n ∧ N.length = n ∧
  (∀ i, i < n → (M.getD i []).length = n + 1 ∧ (N.getD i []).length = n + 1) ∧
  (∀ i j, i < n → j < n → entry M i j = entry N i j)

theorem swapPart_getD (col piv : ℕ) (M : Mat) (hc : col < M.length)
    (hp : piv < M.length) (i : ℕ) :
    (swapPart col piv M).getD i [] =
      if i = col then M.getD piv []
      else if i = piv then M.getD col [] else M.getD i [] := by
  unfold swapPart
  by_cases h : piv = col
  · rw [if_pos h, h]
    by_cases h1 : i = col
    · rw [if_pos h1, h1]
    · rw [if_neg h1, if_neg h1]
  · rw [if_neg h, swapRows_getD M col piv i hc hp]
    by_cases h1 : i = col
    · subst h1
      rw [if_neg h, if_pos rfl, if_pos rfl]
    · by_cases h2 : i = piv
      · subst h2
        rw [if_pos rfl, if_neg h1, if_pos rfl]
      · rw [if_neg (fun hh => h2 hh.symm), if_neg (fun hh => h1 hh.symm),
          if_neg h1, if_neg h2]

theorem scalePart_getD (col : ℕ) (M1 : Mat) (hc : col < M1.length) (i : ℕ) :
    (scalePart col M1).getD i [] =
      if i = col then
        mapIdxFrom (fun j v => if col ≤ j then v / entry M1 col col else v) 0
          (M1.getD col [])
      else M1.getD i [] := by
  unfold scalePart
  rw [getD_set]
  by_cases h : i = col
  · rw [if_pos ⟨h.symm, h ▸ hc⟩, if_pos h]
  · rw [if_neg (fun hh => h hh.1.symm), if_neg h]

theorem elimPart_getD (col : ℕ) (M2 : Mat) (i : ℕ) (hi : i < M2.length) :
    (elimPart col M2).getD i [] =
      if i = col then M2.getD i []
      else
        if entry M2 i col = 0 then M2.getD i []
        else subRow (M2.getD i []) (M2.getD col []) (entry M2 i col) col := by
  unfold elimPart
  rw [mapIdxFrom_getD _ _ _ _ _ hi]
  simp only [Nat.zero_add]

theorem pivotIndex_congr (n col : ℕ) (M N : Mat) (hcol : col < n)
    (hag : ∀ i j, i < n → j < n → entry M i j = entry N i j) :
    pivotIndex M col n = pivotIndex N col n := by
  unfold pivotIndex
  have hgen : ∀ (l : List ℕ) (b : ℕ), b < n → (∀ r ∈ l, r < n) →
      l.foldl (fun best r =>
        if |entry M best col| < |entry M r col| then r else best) b =
      l.foldl (fun best r =>
        if |entry N best col| < |entry N r col| then r else best) b := by
    intro l
    induction l with
    | nil => intro b _ _; rfl
    | cons a as ih =>
      intro b hb hmem
      have ha : a < n := hmem a (List.mem_cons_self a as)
      simp only [List.foldl_cons]
      rw [hag b col hb hcol, hag a col ha hcol]
      by_cases hcmp : |entry N b col| < |entry N a col|
      · rw [if_pos hcmp]
        exact ih a ha (fun r hr => hmem r (List.mem_cons_of_mem a hr))
      · rw [if_neg hcmp]
        exact ih b hb (fun r hr => hmem r (List.mem_cons_of_mem a hr))
  apply hgen
  · exact hcol
  · intro r hr
    rw [List.mem_range'_1] at hr
    omega

theorem swapPart_agree (n col piv : ℕ) (hcol : col < n) (hpn : piv < n)
    (M N : Mat) (h : agreeBelow n M N) :
    agreeBelow n (swapPart col piv M) (swapPart col piv N) := by
  obtain ⟨hMl, hNl, hrows, hent⟩ := h
  have hrowM : ∀ i, i < n → (swapPart col piv M).getD i [] =
      M.getD (if i = col then piv else if i = piv then col else i) [] := by
    intro i hi
    rw [swapPart_getD col piv M (hMl ▸ hcol) (hMl ▸ hpn) i]
    by_cases h1 : i = col
    · rw [if_pos h1, if_pos h1]
    · rw [if_neg h1, if_neg h1]
      by_cases h2 : i = piv
      · rw [if_pos h2, if_pos h2]
      · rw [if_neg h2, if_neg h2]
  have hrowN : ∀ i, i < n → (swapPart col piv N).getD i [] =
      N.getD (if i = col then piv else if i = piv then col else i) [] := by
    intro i hi
    rw [swapPart_getD col piv N (hNl ▸ hcol) (hNl ▸ hpn) i]
    by_cases h1 : i = col
    · rw [if_pos h1, if_pos h1]
    · rw [if_neg h1, if_neg h1]
      by_cases h2 : i = piv
      · rw [if_pos h2, if_pos h2]
      · rw [if_neg h2, if_neg h2]
  have hsig : ∀ i, i < n → (if i = col then piv else if i = piv then col else i) < n := by
    intro i hi
    by_cases h1 : i = col
    · rw [if_pos h1]; exact hpn
    · rw [if_neg h1]
      by_cases h2 : i = piv
      · rw [if_pos h2]; exact hcol
      · rw [if_neg h2]; exact hi
  have hswl : ∀ (K : Mat), (swapPart col piv K).length = K.length := by
    intro K
    unfold swapPart
    by_cases h1 : piv = col
    · rw [if_pos h1]
    · rw [if_neg h1, swapRows_length]
  refine ⟨by rw [hswl]; exact hMl, by rw [hswl]; exact hNl, ?_, ?_⟩
  · intro i hi
    rw [hrowM i hi, hrowN i hi]
    exact hrows _ (hsig i hi)
  · intro i j hi hj
    unfold entry
    rw [hrowM i hi, hrowN i hi]
    exact hent _ j (hsig i hi) hj

theorem scalePart_agree (n col : ℕ) (hcol : col < n) (M1 N1 : Mat)
    (h : agreeBelow n M1 N1) :
    agreeBelow n (scalePart col M1) (scalePart col N1) := by
  obtain ⟨hMl, hNl, hrows, hent⟩ := h
  have hfac : entry M1 col col = entry N1 col col := hent col col hcol hcol
  have hrowM := scalePart_getD col M1 (hMl ▸ hcol)
  have hrowN := scalePart_getD col N1 (hNl ▸ hcol)
  have hsll : ∀ (K : Mat), (scalePart col K).length = K.length := by
    intro K
    unfold scalePart
    rw [List.length_set]
  refine ⟨by rw [hsll]; exact hMl, by rw [hsll]; exact hNl, ?_, ?_⟩
  · intro i hi
    rw [hrowM i, hrowN i]
    by_cases h1 : i = col
    · rw [if_pos h1, if_pos h1, mapIdxFrom_length, mapIdxFrom_length]
      exact hrows col hcol
    · rw [if_neg h1, if_neg h1]
      exact hrows i hi
  · intro i j hi hj
    unfold entry
    rw [hrowM i, hrowN i]
    by_cases h1 : i = col
    · rw [if_pos h1, if_pos h1,
        mapIdxFrom_getD _ _ _ _ _ (by rw [(hrows col hcol).1]; omega),
        mapIdxFrom_getD _ _ _ _ _ (by rw [(hrows col hcol).2]; omega)]
      simp only [Nat.zero_add]
      have hM := hent col j hcol hj
      unfold entry at hM
      rw [hM]
      rw [hfac]
    · rw [if_neg h1, if_neg h1]
      exact hent i j hi hj

theorem elimPart_agree (n col : ℕ) (hcol : col < n) (M2 N2 : Mat)
    (h : agreeBelow n M2 N2) :
    agreeBelow n (elimPart col M2) (elimPart col N2) := by
  obtain ⟨hMl, hNl, hrows, hent⟩ := h
  have hrowM := fun i (hi : i < n) => elimPart_getD col M2 i (by omega)
  have hrowN := fun i (hi : i < n) => elimPart_getD col N2 i (by omega)
  have hell : ∀ (K : Mat), (elimPart col K).length = K.length := by
    intro K
    unfold elimPart
    rw [mapIdxFrom_length]
  have hsubget : ∀ (K : Mat) i j f, i < n → j ≤ n →
      ((K.getD i []).length = n + 1) →
      (subRow (K.getD i []) (K.getD col []) f col).getD j 0 =
        if col ≤ j then entry K i j - f * entry K col j else entry K i j := by
    intro K i j f hi hj hlen
    unfold subRow
    rw [mapIdxFrom_getD _ _ _ _ _ (by omega)]
    simp only [Nat.zero_add]
    rfl
  refine ⟨by rw [hell]; exact hMl, by rw [hell]; exact hNl, ?_, ?_⟩
  · intro i hi
    rw [hrowM i hi, hrowN i hi]
    by_cases h1 : i = col
    · rw [if_pos h1, if_pos h1]
      exact hrows i hi
    · rw [if_neg h1, if_neg h1, hent i col hi hcol]
      by_cases h2 : entry N2 i col = 0
      · rw [if_pos h2, if_pos h2]
        exact hrows i hi
      · rw [if_neg h2, if_neg h2]
        unfold subRow
        rw [mapIdxFrom_length, mapIdxFrom_length]
        exact hrows i hi
  · intro i j hi hj
    unfold entry
    rw [hrowM i hi, hrowN i hi]
    by_cases h1 : i = col
    · rw [if_pos h1, if_pos h1]
      exact hent i j hi hj
    · rw [if_neg h1, if_neg h1, hent i col hi hcol]
      by_cases h2 : entry N2 i col = 0
      · rw [if_pos h2, if_pos h2]
        exact hent i j hi hj
      · rw [if_neg h2, if_neg h2,
          hsubget M2 i j _ hi (by omega) (hrows i hi).1,
          hsubget N2 i j _ hi (by omega) (hrows i hi).2]
        rw [hent i j hi hj, hent col j hcol hj]

theorem elimStep_agree (n col piv : ℕ) (hcol : col < n) (hpn : piv < n)
    (M N : Mat) (h : agreeBelow n M N) :
    agreeBelow n (elimStep col piv M) (elimStep col piv N) :=
  elimPart_agree n col hcol _ _
    (scalePart_agree n col hcol _ _ (swapPart_agree n col piv hcol hpn M N h))

/-- Whether the elimination loop fails depends only on the matrix block. -/
theorem elimFails_congr (n : ℕ) (cols : List ℕ) :
    ∀ M N, (∀ c ∈ cols, c < n) → agreeBelow n M N →
      elimFails n M cols = elimFails n N cols := by
  induction cols with
  | nil => intro M N _ _; rfl
  | cons c rest ih =>
    intro M N hcols h
    have hc : c < n := hcols c (List.mem_cons_self c rest)
    have hpiv : pivotIndex M c n = pivotIndex N c n :=
      pivotIndex_congr n c M N hc h.2.2.2
    obtain ⟨hp1, hp2⟩ := pivotIndex_range N c n hc
    simp only [elimFails]
    rw [hpiv, h.2.2.2 (pivotIndex N c n) c hp2 hc]
    by_cases hthr : |entry N (pivotIndex N c n) c| < pivThreshold
    · rw [if_pos hthr, if_pos hthr]
    · rw [if_neg hthr, if_neg hthr]
      exact ih _ _ (fun d hd => hcols d (List.mem_cons_of_mem c hd))
        (elimStep_agree n c (pivotIndex N c n) hc hp2 M N h)

/-- The value the source's statement sequence leaves at `A[s][j]`, written
additively (the four addressed positions only coincide at the reset column,
where the source also accumulates with `-=`). -/
def codeCoeff (table : List StarRow) (T s j : ℕ) : ℚ :=
  (if j = s then 1 - (Pfun table s).keep else 0)
  + (if s + 1 < T ∧ j = s + 1 then -(Pfun table s).succ else 0)
  + (if 1 ≤ s ∧ j = s - 1 then -(Pfun table s).drop else 0)
  + (if 10 < T ∧ j = 10 then -(Pfun table s).boom else 0)

theorem starRow1_length (table : List StarRow) (T s : ℕ) :
    (starRow1 table T s).length = T := by
  unfold starRow1
  rw [List.length_set, List.length_replicate]

theorem starRow2_length (table : List StarRow) (T s : ℕ) :
    (starRow2 table T s).length = T := by
  unfold starRow2
  by_cases h : s + 1 < T
  · rw [if_pos h, List.length_set, starRow1_length]
  · rw [if_neg h, starRow1_length]

theorem starRow3_length (table : List StarRow) (T s : ℕ) :
    (starRow3 table T s).length = T := by
  unfold starRow3
  by_cases h : 1 ≤ s
  · rw [if_pos h, List.length_set, starRow2_length]
  · rw [if_neg h, starRow2_length]

theorem starRow_length (table : List StarRow) (T s : ℕ) :
    (starRow table T s).length = T := by
  unfold starRow
  by_cases h : 10 < T
  · rw [if_pos h, List.length_set, starRow3_length]
  · rw [if_neg h, starRow3_length]

theorem getD_replicate_zero (n j : ℕ) : (List.replicate n (0 : ℚ)).getD j 0 = 0 := by
  induction n generalizing j with
  | zero => simp
  | succ m ih =>
    cases j with
    | zero => simp [List.replicate]
    | succ k => simp only [List.replicate, List.getD_cons_succ]; exact ih k

theorem starRow1_getD (table : List StarRow) (T s j : ℕ) (hj : j < T) :
    (starRow1 table T s).getD j 0 =
      if j = s then 1 - (Pfun table s).keep else 0 := by
  unfold starRow1
  rw [getD_set, List.length_replicate, getD_replicate_zero]
  by_cases h : j = s
  · rw [if_pos (show s = j ∧ j < T from ⟨h.symm, hj⟩), if_pos h]
  · rw [if_neg (show ¬(s = j ∧ j < T) from fun hc => h hc.1.symm), if_neg h]

theorem starRow2_getD (table : List StarRow) (T s j : ℕ) (hj : j < T) :
    (starRow2 table T s).getD j 0 =
      (if j = s then 1 - (Pfun table s).keep else 0)
      + (if s + 1 < T ∧ j = s + 1 then -(Pfun table s).succ else 0) := by
  unfold starRow2
  by_cases h : s + 1 < T
  · rw [if_pos h, getD_set, starRow1_length, starRow1_getD table T s j hj]
    by_cases h2 : j = s + 1
    · rw [if_pos (show s + 1 = j ∧ j < T from ⟨h2.symm, hj⟩),
        if_pos (show s + 1 < T ∧ j = s + 1 from ⟨h, h2⟩),
        if_neg (show ¬j = s by omega)]
      ring
    · rw [if_neg (show ¬(s + 1 = j ∧ j < T) from fun hc => h2 hc.1.symm),
        if_neg (show ¬(s + 1 < T ∧ j = s + 1) from fun hc => h2 hc.2)]
      ring
  · rw [if_neg h, starRow1_getD table T s j hj,
      if_neg (show ¬(s + 1 < T ∧ j = s + 1) from fun hc => h hc.1)]
    ring

theorem starRow3_getD (table : List StarRow) (T s j : ℕ) (hs : s < T) (hj : j < T) :
    (starRow3 table T s).getD j 0 =
      (if j = s then 1 - (Pfun table s).keep else 0)
      + (if s + 1 < T ∧ j = s + 1 then -(Pfun table s).succ else 0)
      + (if 1 ≤ s ∧ j = s - 1 then -(Pfun table s).drop else 0) := by
  unfold starRow3
  by_cases h : 1 ≤ s
  · rw [if_pos h, getD_set, starRow2_length]
    have hwrit : (starRow2 table T s).getD (s - 1) 0 = 0 := by
      rw [starRow2_getD table T s (s - 1) (by omega),
        if_neg (show ¬s - 1 = s by omega),
        if_neg (show ¬(s + 1 < T ∧ s - 1 = s + 1) from fun hc => by omega)]
      ring
    rw [hwrit, starRow2_getD table T s j hj]
    by_cases h2 : j = s - 1
    · rw [if_pos (show s - 1 = j ∧ j < T from ⟨h2.symm, hj⟩),
        if_pos (show 1 ≤ s ∧ j = s - 1 from ⟨h, h2⟩),
        if_neg (show ¬j = s by omega),
        if_neg (show ¬(s + 1 < T ∧ j = s + 1) from fun hc => by omega)]
      ring
    · rw [if_neg (show ¬(s - 1 = j ∧ j < T) from fun hc => h2 hc.1.symm),
        if_neg (show ¬(1 ≤ s ∧ j = s - 1) from fun hc => h2 hc.2)]
      ring
  · rw [if_neg h, starRow2_getD table T s j hj,
      if_neg (show ¬(1 ≤ s ∧ j = s - 1) from fun hc => h hc.1)]
    ring

theorem starRow_getD (table : List StarRow) (T s j : ℕ) (hs : s < T) (hj : j < T) :
    (starRow table T s).getD j 0 = codeCoeff table T s j := by
  unfold starRow codeCoeff
  by_cases h : 10 < T
  · rw [if_pos h, getD_set, starRow3_length]
    by_cases h2 : j = 10
    · subst h2
      rw [if_pos (show (10 : ℕ) = 10 ∧ (10 : ℕ) < T from ⟨rfl, hj⟩),
        if_pos (show 10 < T ∧ (10 : ℕ) = 10 from ⟨h, rfl⟩),
        starRow3_getD table T s 10 hs h]
      ring
    · rw [if_neg (show ¬((10 : ℕ) = j ∧ j < T) from fun hc => h2 hc.1.symm),
        if_neg (show ¬(10 < T ∧ j = 10) from fun hc => h2 hc.2),
        starRow3_getD table T s j hs hj]
      ring
  · rw [if_neg h, starRow3_getD table T s j hs hj,
      if_neg (show ¬(10 < T ∧ j = 10) from fun hc => h hc.1)]
    ring

theorem buildA_length (table : List StarRow) (T : ℕ) :
    (buildA table T).length = T := by
  unfold buildA
  rw [List.length_map, List.length_range]

theorem buildA_getD (table : List StarRow) (T s : ℕ) (hs : s < T) :
    (buildA table T).getD s [] = starRow table T s := by
  unfold buildA
  rw [List.getD_eq_getElem _ _ (by rw [List.length_map, List.length_range]; exact hs)]
  rw [List.getElem_map, List.getElem_range]

theorem buildA_rows (table : List StarRow) (T : ℕ) :
    ∀ r ∈ buildA table T, r.length = (buildA table T).length := by
  intro r hr
  unfold buildA at hr
  rw [List.mem_map] at hr
  obtain ⟨s, _, rfl⟩ := hr
  rw [starRow_length, buildA_length]

theorem buildB_length (T : ℕ) (prices : ℕ → Option ℚ) :
    (buildB T prices).length = T := by
  unfold buildB
  rw [List.length_map, List.length_range]

theorem buildB_getD (T : ℕ) (prices : ℕ → Option ℚ) (s : ℕ) (hs : s < T) :
    (buildB T prices).getD s 0 = (prices s).getD 0 := by
  unfold buildB
  rw [List.getD_eq_getElem _ _ (by rw [List.length_map, List.length_range]; exact hs)]
  rw [List.getElem_map, List.getElem_range]

theorem buildA_entry (table : List StarRow) (T s j : ℕ) (hs : s < T) (hj : j < T) :
    entry (buildA table T) s j = codeCoeff table T s j := by
  unfold entry
  rw [buildA_getD table T s hs, starRow_getD table T s j hs hj]

/-- Modelled from the spec (§4.3): the coefficient of `E[j]` in row `s` of
`(1 - stay)·E[s] - succeed·E[s+1] - regress·E[s-1] - reset·E[10] = price[s]`,
where (a) the `succeed` term is omitted exactly when `s+1 = target`, (b) the
`regress` term is omitted exactly when `s = 0`, and (c) the `reset` term is
omitted exactly when the anchor level 10 is not strictly below the target. -/
def specCoeff (table : List StarRow) (T s j : ℕ) : ℚ :=
  (if j = s then 1 - (table.getD s zeroRow).keep else 0)
  - (if j = s + 1 ∧ s + 1 ≠ T then (table.getD s zeroRow).succ else 0)
  - (if j = s - 1 ∧ s ≠ 0 then (table.getD s zeroRow).drop else 0)
  - (if j = 10 ∧ 10 < T then (table.getD s zeroRow).boom else 0)

/-- On the index range actually used (`s, j < T ≤ table length`), the matrix
the code builds is exactly the spec's system. -/
theorem codeCoeff_eq_specCoeff (table : List StarRow) (T s j : ℕ)
    (hs : s < T) (hj : j < T) (hT : T ≤ table.length) :
    codeCoeff table T s j = specCoeff table T s j := by
  unfold codeCoeff specCoeff Pfun
  rw [if_pos (by omega : s < table.length)]
  have h1 : (s + 1 < T ∧ j = s + 1) ↔ (j = s + 1 ∧ s + 1 ≠ T) := by
    constructor
    · intro h; exact ⟨h.2, by omega⟩
    · intro h; exact ⟨by omega, h.1⟩
  have h2 : (1 ≤ s ∧ j = s - 1) ↔ (j = s - 1 ∧ s ≠ 0) := by
    constructor
    · intro h; exact ⟨h.2, by omega⟩
    · intro h; exact ⟨by omega, h.1⟩
  have h3 : (10 < T ∧ j = 10) ↔ (j = 10 ∧ 10 < T) := ⟨fun h => ⟨h.2, h.1⟩, fun h => ⟨h.2, h.1⟩⟩
  rw [if_congr h1 rfl rfl, if_congr h2 rfl rfl, if_congr h3 rfl rfl]
  split_ifs <;> ring

/-- Successful run of the estimator: target in range, all prices present, no
small pivot.  The returned `E` solves the built linear system row by row. -/
theorem expected_star_cost_table_ok (table : List StarRow)
    (prices : ℕ → Option ℚ) (T : ℕ) (start : ℤ)
    (hT1 : 1 ≤ T) (hT2 : T ≤ 25)
    (hcov : ∀ s, s < T → (prices s).isSome = true)
    (hnofail : solveFails (buildA table T) (buildB T prices) = false) :
    ∃ res, expected_star_cost_table table prices T start = .ok res ∧
      res.E.length = T ∧
      (∀ s, s < T →
        (∑ j ∈ Finset.range T, codeCoeff table T s j * res.E.getD j 0) =
          (prices s).getD 0) ∧
      res.expected_cost_from_0 = res.E.getD 0 0 ∧
      res.expected_cost_from_start =
        (if 0 ≤ start ∧ start < (T : ℤ) then
          ((res.E.getD start.toNat 0 : ℚ) : WithTop ℚ)
        else if (T : ℤ) ≤ start then ((0 : ℚ) : WithTop ℚ) else ⊤) := by
  have hempty : ((List.range T).filter (fun s => (prices s).isNone)).isEmpty = true := by
    rw [List.isEmpty_iff, List.filter_eq_nil_iff]
    intro s hsmem
    rw [List.mem_range] at hsmem
    simp only [Bool.not_eq_true, Option.isNone_eq_false_iff]
    exact hcov s hsmem
  obtain ⟨x, hx, hxlen, hxsat⟩ :=
    (solve_linear_system_spec (buildA table T) (buildB T prices)
      (buildA_rows table T) (by rw [buildB_length, buildA_length])).1 hnofail
  refine ⟨{ start_star := start, target_star := T, step_costs := prices, E := x,
            expected_cost_from_0 := x.getD 0 0,
            expected_cost_from_start :=
              if 0 ≤ start ∧ start < (T : ℤ) then
                ((x.getD start.toNat 0 : ℚ) : WithTop ℚ)
              else if (T : ℤ) ≤ start then ((0 : ℚ) : WithTop ℚ) else ⊤ },
    ?_, ?_, ?_, rfl, rfl⟩
  · unfold expected_star_cost_table
    rw [if_neg (by omega), if_pos hempty, hx]
  · rw [hxlen, buildA_length]
  · intro s hsT
    have hrow := hxsat s (by rw [buildA_length]; exact hsT)
    rw [buildA_length] at hrow
    rw [buildB_getD T prices s hsT] at hrow
    calc (∑ j ∈ Finset.range T, codeCoeff table T s j * x.getD j 0)
        = (∑ j ∈ Finset.range T, entry (buildA table T) s j * x.getD j 0) := by
          apply Finset.sum_congr rfl
          intro j hj
          rw [buildA_entry table T s j hsT (Finset.mem_range.mp hj)]
      _ = (prices s).getD 0 := hrow

/-- The estimator's missing-price failure: the reported list is the filter of
`range target` by absence, computed before anything else. -/
theorem expected_star_cost_table_missing (table : List StarRow)
    (prices : ℕ → Option ℚ) (T : ℕ) (start : ℤ)
    (hT1 : 1 ≤ T) (hT2 : T ≤ 25)
    (hmiss : (List.range T).filter (fun s => (prices s).isNone) ≠ []) :
    expected_star_cost_table table prices T start =
      .error (.missingPrice
        ((List.range T).filter (fun s => (prices s).isNone))) := by
  unfold expected_star_cost_table
  rw [if_neg (by omega), if_neg (by rwa [ne_eq, ← List.isEmpty_iff] at hmiss)]

/-- Failure of the solver does not depend on the right-hand side. -/
theorem solveFails_congr_b (A : Mat) (b b' : List ℚ)
    (hsq : ∀ r ∈ A, r.length = A.length)
    (hb : b.length = A.length) (hb' : b'.length = A.length) :
    solveFails A b = solveFails A b' := by
  have hrowlen : ∀ i, i < A.length → (A.getD i []).length = A.length := by
    intro i hi
    rw [List.getD_eq_getElem _ _ hi]
    exact hsq _ (List.getElem_mem hi)
  have hag : agreeBelow A.length (augment A b) (augment A b') := by
    refine ⟨?_, ?_, ?_, ?_⟩
    · unfold augment
      rw [List.length_zipWith, hb, Nat.min_self]
    · unfold augment
      rw [List.length_zipWith, hb', Nat.min_self]
    · intro i hi
      rw [augment_getD A b i hi (hb ▸ hi), augment_getD A b' i hi (hb' ▸ hi),
        List.length_append, List.length_append, hrowlen i hi]
      exact ⟨rfl, rfl⟩
    · intro i j hi hj
      unfold entry
      rw [augment_getD A b i hi (hb ▸ hi), augment_getD A b' i hi (hb' ▸ hi),
        List.getD_append _ _ _ _ (by rw [hrowlen i hi]; exact hj),
        List.getD_append _ _ _ _ (by rw [hrowlen i hi]; exact hj)]
  exact elimFails_congr A.length (List.range A.length) (augment A b)
    (augment A b') (fun c hc => List.mem_range.mp hc) hag

/-- The canonical (zero right-hand side) pivot check for target `T` over the
fixed table. -/
def starFailsCanon (T : ℕ) : Bool :=
  solveFails (buildA STAR_PROBS T) (List.replicate T (0 : ℚ))

section PivotComputation

attribute [local semireducible] Rat.mul Rat.inv Rat.add Rat.sub

set_option maxRecDepth 40000 in
set_option maxHeartbeats 4000000 in
/-- For every target `1..25`, Gauss-Jordan elimination of the system built
from the fixed table meets no pivot of magnitude below `1e-12` (checked by
exact rational computation). -/
theorem starFailsCanon_all_false :
    ((List.range 25).all (fun k => !starFailsCanon (k + 1))) = true := by
  decide

end PivotComputation

/-- Hence the estimator's solver call never fails, for any price vector. -/
theorem star_solveFails_false (T : ℕ) (hT1 : 1 ≤ T) (hT2 : T ≤ 25)
    (prices : ℕ → Option ℚ) :
    solveFails (buildA STAR_PROBS T) (buildB T prices) = false := by
  have hcanon : starFailsCanon T = false := by
    have hall := List.all_eq_true.mp starFailsCanon_all_false (T - 1)
      (List.mem_range.mpr (by omega))
    have hTT : T - 1 + 1 = T := by omega
    rw [hTT] at hall
    simpa using hall
  have hcongr := solveFails_congr_b (buildA STAR_PROBS T) (buildB T prices)
    (List.replicate T (0 : ℚ)) (buildA_rows STAR_PROBS T)
    (by rw [buildB_length, buildA_length])
    (by rw [List.length_replicate, buildA_length])
  rw [hcongr]
  exact hcanon

/-! ## Quality estimator: the per-step fold computes sum-of-min and the
chosen-tool breakdown -/

theorem mainFold_spec (pr pb : ℚ) (steps : List (Tier × Tier)) :
    ∀ acc : ℚ × List ((Tier × Tier) × ℚ × ℚ),
    (steps.foldl (mainStepFold pr pb) acc).1 =
      acc.1 + (steps.map
        (fun st => min (pr / redOdds st.2) (pb / blackOdds st.2))).sum ∧
    (steps.foldl (mainStepFold pr pb) acc).2 =
      acc.2 ++ steps.map (fun st =>
        if pr / redOdds st.2 ≤ pb / blackOdds st.2 then (st, pr, redOdds st.2)
        else (st, pb, blackOdds st.2)) := by
  induction steps with
  | nil => intro acc; simp
  | cons st rest ih =>
    intro acc
    simp only [List.foldl_cons, List.map_cons, List.sum_cons]
    obtain ⟨ih1, ih2⟩ := ih (mainStepFold pr pb acc st)
    constructor
    · rw [ih1]
      unfold mainStepFold
      by_cases h : pr / redOdds st.2 ≤ pb / blackOdds st.2
      · rw [if_pos h]
        rw [min_eq_left h]
        ring
      · rw [if_neg h]
        rw [min_eq_right (le_of_not_le h)]
        ring
    · rw [ih2]
      unfold mainStepFold
      by_cases h : pr / redOdds st.2 ≤ pb / blackOdds st.2
      · rw [if_pos h, if_pos h]
        simp
      · rw [if_neg h, if_neg h]
        simp

theorem bonusFold_spec (pbn : ℚ) (steps : List (Tier × Tier)) :
    ∀ acc : ℚ × List ((Tier × Tier) × ℚ × ℚ),
    (steps.foldl (bonusStepFold pbn) acc).1 =
      acc.1 + (steps.map (fun st => pbn / bonusOdds st.2)).sum ∧
    (steps.foldl (bonusStepFold pbn) acc).2 =
      acc.2 ++ steps.map (fun st => (st, pbn, bonusOdds st.2)) := by
  induction steps with
  | nil => intro acc; simp
  | cons st rest ih =>
    intro acc
    simp only [List.foldl_cons, List.map_cons, List.sum_cons]
    obtain ⟨ih1, ih2⟩ := ih (bonusStepFold pbn acc st)
    refine ⟨by rw [ih1]; unfold bonusStepFold; ring, ?_⟩
    rw [ih2]
    unfold bonusStepFold
    simp

/-- Inversion of a successful estimator run: how each returned field relates
to the solver output. -/
theorem expected_star_cost_table_ok_inv (table : List StarRow)
    (prices : ℕ → Option ℚ) (T : ℕ) (start : ℤ) (res : StarCostResult)
    (h : expected_star_cost_table table prices T start = .ok res) :
    1 ≤ T ∧ T ≤ 25 ∧
    solve_linear_system (buildA table T) (buildB T prices) = some res.E ∧
    res.expected_cost_from_0 = res.E.getD 0 0 ∧
    res.expected_cost_from_start =
      (if 0 ≤ start ∧ start < (T : ℤ) then
        ((res.E.getD start.toNat 0 : ℚ) : WithTop ℚ)
      else if (T : ℤ) ≤ start then ((0 : ℚ) : WithTop ℚ) else ⊤) := by
  unfold expected_star_cost_table at h
  by_cases h1 : T < 1 ∨ 25 < T
  · rw [if_pos h1] at h
    exact absurd h (by simp)
  · rw [if_neg h1] at h
    by_cases h2 : ((List.range T).filter (fun s => (prices s).isNone)).isEmpty = true
    · rw [if_pos h2] at h
      cases hs : solve_linear_system (buildA table T) (buildB T prices) with
      | none =>
        rw [hs] at h
        exact absurd h (by simp)
      | some x =>
        rw [hs] at h
        injection h with h3
        refine ⟨by omega, by omega, ?_, ?_, ?_⟩
        · rw [← h3]
        · rw [← h3]
        · rw [← h3]
    · rw [if_neg h2] at h
      exact absurd h (by simp)

/-- A returned solver vector always satisfies the system (packaging of
`solve_linear_system_spec` keyed on the output rather than the pivot test). -/
theorem solve_some_sat (A : Mat) (b : List ℚ) (x : List ℚ)
    (hsq : ∀ r ∈ A, r.length = A.length) (hb : b.length = A.length)
    (hx : solve_linear_system A b = some x) :
    x.length = A.length ∧
    ∀ i, i < A.length →
      (∑ j ∈ Finset.range A.length, entry A i j * x.getD j 0) = b.getD i 0 := by
  obtain ⟨hgood, hbad⟩ := solve_linear_system_spec A b hsq hb
  cases hf : solveFails A b with
  | false =>
    obtain ⟨x', hx', hlen, hsat⟩ := hgood hf
    rw [hx] at hx'
    injection hx' with hxx
    subst hxx
    exact ⟨hlen, hsat⟩
  | true =>
    rw [hbad hf] at hx
    exact absurd hx (by simp)

/-! ## The claims -/

/-- C2: for every n×n matrix `A` and length-n vector `b`, if Gauss-Jordan
elimination with partial pivoting meets no pivot of magnitude below `1e-12`,
`solve_linear_system A b` returns a vector `x` with `A·x = b` exactly (row by
row, over exact rational arithmetic); if some pivot falls below `1e-12` it
fails with the numerical-instability error (`none`) instead. -/
theorem claim_C2_solver_correct (A : Mat) (b : List ℚ)
    (hsq : ∀ r ∈ A, r.length = A.length) (hb : b.length = A.length) :
    (solveFails A b = false →
      ∃ x, solve_linear_system A b = some x ∧
        ∀ i, i < A.length →
          (∑ j ∈ Finset.range A.length, entry A i j * x.getD j 0) =
            b.getD i 0) ∧
    (solveFails A b = true → solve_linear_system A b = none) := by
  obtain ⟨hgood, hbad⟩ := solve_linear_system_spec A b hsq hb
  refine ⟨?_, hbad⟩
  intro hok
  obtain ⟨x, hx, _, hsat⟩ := hgood hok
  exact ⟨x, hx, hsat⟩

/-- C3: for a valid target and a fully covered price map, the reinforcement
estimator never hits the solver's instability branch: no pivot of the system
built from the fixed table falls below `1e-12`, for any price vector and any
start level. -/
theorem claim_C3_no_instability (T : ℕ) (hT1 : 1 ≤ T) (hT2 : T ≤ 25)
    (prices : ℕ → Option ℚ) (hcov : ∀ s, s < T → (prices s).isSome = true)
    (start : ℤ) :
    solveFails (buildA STAR_PROBS T) (buildB T prices) = false ∧
    expected_star_cost prices T start ≠ .error .numericalInstability := by
  have hf := star_solveFails_false T hT1 hT2 prices
  refine ⟨hf, ?_⟩
  obtain ⟨res, hres, _⟩ :=
    expected_star_cost_table_ok STAR_PROBS prices T start hT1 hT2 hcov hf
  intro hc
  rw [expected_star_cost] at hc
  rw [hres] at hc
  exact absurd hc (by simp)

/-- C4: with a valid target and at least one missing price below it, the
estimator fails with `MissingPrice` whose payload contains exactly the missing
level indices — all of them. -/
theorem claim_C4_missing_price (T : ℕ) (hT1 : 1 ≤ T) (hT2 : T ≤ 25)
    (prices : ℕ → Option ℚ) (start : ℤ)
    (hmiss : ∃ s, s < T ∧ prices s = none) :
    ∃ L, expected_star_cost prices T start = .error (.missingPrice L) ∧
      ∀ s, s ∈ L ↔ (s < T ∧ prices s = none) := by
  refine ⟨(List.range T).filter (fun s => (prices s).isNone), ?_, ?_⟩
  · apply expected_star_cost_table_missing STAR_PROBS prices T start hT1 hT2
    obtain ⟨s, hsT, hsn⟩ := hmiss
    intro hnil
    have hmem : s ∈ (List.range T).filter (fun s => (prices s).isNone) := by
      rw [List.mem_filter, List.mem_range]
      exact ⟨hsT, by rw [hsn]; rfl⟩
    rw [hnil] at hmem
    exact absurd hmem (List.not_mem_nil s)
  · intro s
    rw [List.mem_filter, List.mem_range]
    constructor
    · intro ⟨h1, h2⟩
      exact ⟨h1, Option.isNone_iff_eq_none.mp h2⟩
    · intro ⟨h1, h2⟩
      exact ⟨h1, by rw [h2]; rfl⟩

/-- C8: in the fixed transition table the reset probability is zero at every
level strictly below the anchor level 10 — the invariant behind the
omit-reset-term boundary rule. -/
theorem claim_C8_reset_zero_below_anchor (i : ℕ) (hi : i < 10) :
    (STAR_PROBS.getD i zeroRow).boom = 0 := by
  have h : ∀ j, j < 10 → (STAR_PROBS.getD j zeroRow).boom = 0 := by decide
  exact h i hi

theorem list_eq_of_getD (a b : List ℚ) (h : a.length = b.length)
    (hg : ∀ i, i < a.length → a.getD i 0 = b.getD i 0) : a = b := by
  apply List.ext_getElem h
  intro i h1 h2
  have := hg i h1
  rwa [List.getD_eq_getElem _ _ h1, List.getD_eq_getElem _ _ h2] at this

/-- Row satisfaction of the augmented row `i` is exactly the `i`-th equation
of `A·x = b`. -/
theorem rowSat_augment_iff (A : Mat) (b : List ℚ)
    (hsq : ∀ r ∈ A, r.length = A.length) (hb : b.length = A.length)
    (i : ℕ) (hi : i < A.length) (y : List ℚ) :
    rowSat A.length ((augment A b).getD i []) y ↔
      (∑ j ∈ Finset.range A.length, entry A i j * y.getD j 0) = b.getD i 0 := by
  have hrowlen : (A.getD i []).length = A.length := by
    rw [List.getD_eq_getElem _ _ hi]
    exact hsq _ (List.getElem_mem hi)
  unfold rowSat
  rw [augment_getD A b i hi (hb ▸ hi)]
  rw [List.getD_append_right _ _ _ _ (by rw [hrowlen])]
  rw [hrowlen, Nat.sub_self]
  have hsum : ∀ j, j ∈ Finset.range A.length →
      ((A.getD i []) ++ [b.getD i 0]).getD j 0 * y.getD j 0 =
        entry A i j * y.getD j 0 := by
    intro j hj
    rw [List.getD_append _ _ _ _
      (by rw [hrowlen]; exact Finset.mem_range.mp hj)]
    rfl
  rw [Finset.sum_congr rfl hsum]
  exact Iff.rfl

/-- The solver's output is the unique solution of the system. -/
theorem solve_unique (A : Mat) (b : List ℚ) (x y : List ℚ)
    (hsq : ∀ r ∈ A, r.length = A.length) (hb : b.length = A.length)
    (hx : solve_linear_system A b = some x)
    (hylen : y.length = A.length)
    (hysat : ∀ i, i < A.length →
      (∑ j ∈ Finset.range A.length, entry A i j * y.getD j 0) = b.getD i 0) :
    y = x := by
  have hrowlen : ∀ i, i < A.length → (A.getD i []).length = A.length := by
    intro i hi
    rw [List.getD_eq_getElem _ _ hi]
    exact hsq _ (List.getElem_mem hi)
  have hauglen : (augment A b).length = A.length := by
    unfold augment
    rw [List.length_zipWith, hb, Nat.min_self]
  have haugrow : ∀ i, i < A.length →
      ((augment A b).getD i []).length = A.length + 1 := by
    intro i hi
    rw [augment_getD A b i hi (hb ▸ hi), List.length_append, hrowlen i hi]
    rfl
  have hsolve : solve_linear_system A b =
      (elimCols A.length (augment A b) (List.range A.length)).map
        (fun Mf => Mf.map (fun r => r.getD A.length 0)) := rfl
  cases heq : elimCols A.length (augment A b) (List.range A.length) with
  | none =>
    rw [hsolve, heq] at hx
    exact absurd hx (by simp)
  | some Mf =>
    rw [hsolve, heq] at hx
    simp only [Option.map_some'] at hx
    injection hx with hxx
    obtain ⟨hflen, hfrows, hfid, hfsat⟩ :=
      elimCols_spec A.length A.length 0 (augment A b) (Nat.zero_add _) hauglen
        haugrow (fun i _ j hj => absurd hj (Nat.not_lt_zero j)) Mf
        (by rwa [← List.range_eq_range'])
    have hsat0 : satAll A.length (augment A b) y := by
      intro i hi
      exact (rowSat_augment_iff A b hsq hb i hi y).mpr (hysat i hi)
    have hsatf : satAll A.length Mf y := (hfsat y).mpr hsat0
    have hyval : ∀ i, i < A.length →
        y.getD i 0 = (Mf.getD i []).getD A.length 0 := by
      intro i hi
      have hrow := hsatf i hi
      unfold rowSat at hrow
      have hterm : ∀ j, j ∈ Finset.range A.length →
          (Mf.getD i []).getD j 0 * y.getD j 0 =
            if i = j then y.getD j 0 else 0 := by
        intro j hj
        have hf := hfid i hi j (Finset.mem_range.mp hj)
        unfold entry at hf
        rw [hf]
        by_cases h : i = j
        · rw [if_pos h, if_pos h, one_mul]
        · rw [if_neg h, if_neg h, zero_mul]
      rw [Finset.sum_congr rfl hterm, Finset.sum_ite_eq,
        if_pos (Finset.mem_range.mpr hi)] at hrow
      exact hrow
    apply list_eq_of_getD
    · rw [hylen, ← hxx, List.length_map, hflen]
    · intro i hi
      rw [hylen] at hi
      rw [hyval i hi, ← hxx, getD_map_fn _ Mf i [] 0 (by omega)]

theorem STAR_PROBS_length : STAR_PROBS.length = 25 := rfl

/-- C1: for every target `1 ≤ T ≤ 25` and price map covering `[0, T)`, the
matrix the estimator builds is, entry by entry, the spec's system
`(1-stay)·E[s] - succeed·E[s+1] - regress·E[s-1] - reset·E[10] = price[s]`
with the three boundary omissions, and the per-level result is the (unique)
solution of that system. -/
theorem claim_C1_system (T : ℕ) (hT1 : 1 ≤ T) (hT2 : T ≤ 25)
    (prices : ℕ → Option ℚ) (hcov : ∀ s, s < T → (prices s).isSome = true)
    (start : ℤ) :
    (∀ s j, s < T → j < T →
      entry (buildA STAR_PROBS T) s j = specCoeff STAR_PROBS T s j) ∧
    ∃ res, expected_star_cost prices T start = .ok res ∧
      res.E.length = T ∧
      (∀ s, s < T →
        (∑ j ∈ Finset.range T, specCoeff STAR_PROBS T s j * res.E.getD j 0) =
          (prices s).getD 0) ∧
      (∀ y, y.length = T →
        (∀ s, s < T →
          (∑ j ∈ Finset.range T, specCoeff STAR_PROBS T s j * y.getD j 0) =
            (prices s).getD 0) →
        y = res.E) := by
  have hentry : ∀ s j, s < T → j < T →
      entry (buildA STAR_PROBS T) s j = specCoeff STAR_PROBS T s j := by
    intro s j hs hj
    rw [buildA_entry STAR_PROBS T s j hs hj]
    exact codeCoeff_eq_specCoeff STAR_PROBS T s j hs hj
      (by rw [STAR_PROBS_length]; omega)
  have hf := star_solveFails_false T hT1 hT2 prices
  obtain ⟨res, hres, hlen, hsat, _, _⟩ :=
    expected_star_cost_table_ok STAR_PROBS prices T start hT1 hT2 hcov hf
  have hAlen : (buildA STAR_PROBS T).length = T := buildA_length STAR_PROBS T
  refine ⟨hentry, res, hres, hlen, ?_, ?_⟩
  · intro s hs
    have hrow := hsat s hs
    calc (∑ j ∈ Finset.range T, specCoeff STAR_PROBS T s j * res.E.getD j 0)
        = (∑ j ∈ Finset.range T, codeCoeff STAR_PROBS T s j * res.E.getD j 0) := by
          apply Finset.sum_congr rfl
          intro j hj
          rw [codeCoeff_eq_specCoeff STAR_PROBS T s j hs
            (Finset.mem_range.mp hj) (by rw [STAR_PROBS_length]; omega)]
      _ = (prices s).getD 0 := hrow
  · intro y hylen hysat
    obtain ⟨_, _, hsolve, _, _⟩ :=
      expected_star_cost_table_ok_inv STAR_PROBS prices T start res hres
    apply solve_unique (buildA STAR_PROBS T) (buildB T prices) res.E y
      (buildA_rows STAR_PROBS T) (by rw [buildB_length, hAlen]) hsolve
      (by rw [hylen, hAlen])
    intro i hi
    rw [hAlen] at hi
    rw [hAlen, buildB_getD T prices i hi]
    calc (∑ j ∈ Finset.range T, entry (buildA STAR_PROBS T) i j * y.getD j 0)
        = (∑ j ∈ Finset.range T, specCoeff STAR_PROBS T i j * y.getD j 0) := by
          apply Finset.sum_congr rfl
          intro j hj
          rw [hentry i j hi (Finset.mem_range.mp hj)]
      _ = (prices i).getD 0 := hysat i hi

/-- C10: a negative start level raises no error: the estimator returns
`+∞` (`float("inf")`) as the cost from start, while the solved vector and the
cost from level 0 are identical to those of any non-negative start. -/
theorem claim_C10_negative_start (T : ℕ) (hT1 : 1 ≤ T) (hT2 : T ≤ 25)
    (prices : ℕ → Option ℚ) (hcov : ∀ s, s < T → (prices s).isSome = true)
    (start : ℤ) (hneg : start < 0) (start' : ℤ) (_hpos : 0 ≤ start') :
    ∃ res res',
      expected_star_cost prices T start = .ok res ∧
      expected_star_cost prices T start' = .ok res' ∧
      res.expected_cost_from_start = (⊤ : WithTop ℚ) ∧
      res.E = res'.E ∧
      res.expected_cost_from_0 = res'.expected_cost_from_0 := by
  have hf := star_solveFails_false T hT1 hT2 prices
  obtain ⟨res, hres, _, _, hfrom0, hfromstart⟩ :=
    expected_star_cost_table_ok STAR_PROBS prices T start hT1 hT2 hcov hf
  obtain ⟨res', hres', _, _, hfrom0', _⟩ :=
    expected_star_cost_table_ok STAR_PROBS prices T start' hT1 hT2 hcov hf
  obtain ⟨_, _, hsolve, _, _⟩ :=
    expected_star_cost_table_ok_inv STAR_PROBS prices T start res hres
  obtain ⟨_, _, hsolve', _, _⟩ :=
    expected_star_cost_table_ok_inv STAR_PROBS prices T start' res' hres'
  have hEeq : res.E = res'.E := by
    have h2 := hsolve'
    rw [hsolve] at h2
    exact Option.some.inj h2
  refine ⟨res, res', hres, hres', ?_, hEeq, ?_⟩
  · rw [hfromstart, if_neg (by omega), if_neg (by omega)]
  · rw [hfrom0, hfrom0', hEeq]

/-- C5 counterexample: at `start = target = 1` with every price missing, the
estimator raises `MissingPrice` rather than returning cost 0, so "cost 0
regardless of supplied prices" fails on the code. -/
theorem claim_C5_counterexample :
    expected_star_cost (fun _ => none) 1 1 = .error (.missingPrice [0]) := rfl

theorem steps_from_nil (start_tier target_tier : Tier)
    (h : target_tier.idx ≤ start_tier.idx) :
    steps_from start_tier target_tier = [] := by
  unfold steps_from
  rw [if_pos h]

/-- Shape of every successful `expected_potential_cost_dual` result. -/
theorem potential_dual_ok (price_red price_black price_bonus : Option ℚ)
    (mt mst : Tier) (bt : Option Tier) (bst : Tier)
    (hmt : mt ≠ .Rare) (hbt : bt ≠ some .Rare) :
    expected_potential_cost_dual price_red price_black price_bonus mt mst bt
        bst =
      .ok { main_start_tier := mst
            main_target_tier := mt
            main_cost := (mainPartOf price_red price_black
              (steps_from mst mt)).map Prod.fst
            main_breakdown := (mainPartOf price_red price_black
              (steps_from mst mt)).map Prod.snd
            bonus_start_tier := bt.map (fun _ => bst)
            bonus_target_tier := bt
            bonus_cost := bt.bind (fun b =>
              (bonusPartOf price_bonus (steps_from bst b)).map Prod.fst)
            bonus_breakdown := bt.bind (fun b =>
              (bonusPartOf price_bonus (steps_from bst b)).map Prod.snd) } := by
  unfold expected_potential_cost_dual
  rw [if_neg hmt]
  cases bt with
  | none => rfl
  | some b =>
    have hb : b ≠ .Rare := fun hc => hbt (by rw [hc])
    simp only [if_neg hb]
    rfl

/-- C5 (amended): the claim's three zero-cost boundary facts hold once the
required prices are present and the targets are valid tiers: (1) with a fully
covered price map, `start ≥ target` gives cost-from-start exactly 0; (2) with
both main tool prices present and a valid main target, `target ≤ start` on the
main quality ladder gives cost 0 with an empty step list; (3) with the bonus
price present and a valid bonus target, `target ≤ start` on the bonus ladder
gives cost 0 with an empty step list. -/
theorem claim_C5_amended :
    (∀ (prices : ℕ → Option ℚ) (T : ℕ) (start : ℤ), 1 ≤ T → T ≤ 25 →
      (∀ s, s < T → (prices s).isSome = true) → (T : ℤ) ≤ start →
      ∃ res, expected_star_cost prices T start = .ok res ∧
        res.expected_cost_from_start = ((0 : ℚ) : WithTop ℚ)) ∧
    (∀ (pr pb : ℚ) (pbn : Option ℚ) (mt mst bst : Tier) (bt : Option Tier),
      mt ≠ .Rare → mt.idx ≤ mst.idx → bt ≠ some .Rare →
      ∃ res, expected_potential_cost_dual (some pr) (some pb) pbn mt mst bt
          bst = .ok res ∧
        res.main_cost = some 0 ∧ res.main_breakdown = some []) ∧
    (∀ (pr pb : Option ℚ) (pbn : ℚ) (mt mst bst b : Tier),
      mt ≠ .Rare → b ≠ .Rare → b.idx ≤ bst.idx →
      ∃ res, expected_potential_cost_dual pr pb (some pbn) mt mst (some b)
          bst = .ok res ∧
        res.bonus_cost = some 0 ∧ res.bonus_breakdown = some []) := by
  refine ⟨?_, ?_, ?_⟩
  · intro prices T start hT1 hT2 hcov hge
    have hf := star_solveFails_false T hT1 hT2 prices
    obtain ⟨res, hres, _, _, _, hfromstart⟩ :=
      expected_star_cost_table_ok STAR_PROBS prices T start hT1 hT2 hcov hf
    refine ⟨res, hres, ?_⟩
    rw [hfromstart, if_neg (by omega), if_pos hge]
  · intro pr pb pbn mt mst bst bt hmt hle hbt
    refine ⟨_, potential_dual_ok (some pr) (some pb) pbn mt mst bt bst hmt hbt,
      ?_, ?_⟩
    · show ((mainPartOf (some pr) (some pb) (steps_from mst mt)).map
        Prod.fst) = some 0
      rw [steps_from_nil mst mt hle]
      rfl
    · show ((mainPartOf (some pr) (some pb) (steps_from mst mt)).map
        Prod.snd) = some []
      rw [steps_from_nil mst mt hle]
      rfl
  · intro pr pb pbn mt mst bst b hmt hb hle
    refine ⟨_, potential_dual_ok pr pb (some pbn) mt mst (some b) bst hmt
      (fun hc => hb (Option.some.inj hc)), ?_, ?_⟩
    · show ((bonusPartOf (some pbn) (steps_from bst b)).map Prod.fst) = some 0
      rw [steps_from_nil bst b hle]
      rfl
    · show ((bonusPartOf (some pbn) (steps_from bst b)).map Prod.snd) = some []
      rw [steps_from_nil bst b hle]
      rfl

/-- C6: on a non-empty main ladder with both interchangeable tool prices
present, the main cost is the sum over adjacent tier steps of the cheaper of
the two per-attempt expectations `price/probability`, and each recorded step
carries the chosen tool's price and probability. -/
theorem claim_C6_main_cheaper_per_step (pr pb : ℚ) (mst mt : Tier)
    (h : mst.idx < mt.idx) (price_bonus : Option ℚ) (bt : Option Tier)
    (bst : Tier) (hbt : bt ≠ some .Rare) :
    ∃ res, expected_potential_cost_dual (some pr) (some pb) price_bonus mt mst
        bt bst = .ok res ∧
      res.main_cost = some ((steps_from mst mt).map
        (fun st => min (pr / redOdds st.2) (pb / blackOdds st.2))).sum ∧
      res.main_breakdown = some ((steps_from mst mt).map (fun st =>
        if pr / redOdds st.2 ≤ pb / blackOdds st.2 then (st, pr, redOdds st.2)
        else (st, pb, blackOdds st.2))) := by
  have hmt : mt ≠ .Rare := by
    intro hc
    rw [hc] at h
    exact absurd h (by cases mst <;> simp [Tier.idx])
  obtain ⟨h1, h2⟩ := mainFold_spec pr pb (steps_from mst mt) (0, [])
  refine ⟨_, potential_dual_ok (some pr) (some pb) price_bonus mt mst bt bst
    hmt hbt, ?_, ?_⟩
  · show some ((steps_from mst mt).foldl (mainStepFold pr pb) (0, [])).1 = _
    rw [h1, zero_add]
  · show some ((steps_from mst mt).foldl (mainStepFold pr pb) (0, [])).2 = _
    rw [h2, List.nil_append]

/-- C7: in a successful run, the main cost is absent exactly when one of the
two tool prices is unavailable; when both are present the full sum over all
steps is returned (never a partial accumulation). -/
theorem claim_C7_main_none_iff (price_red price_black price_bonus : Option ℚ)
    (mt mst : Tier) (bt : Option Tier) (bst : Tier)
    (res : PotentialDualResult)
    (hok : expected_potential_cost_dual price_red price_black price_bonus mt
      mst bt bst = .ok res) :
    (res.main_cost = none ↔ (price_red = none ∨ price_black = none)) ∧
    ∀ pr pb, price_red = some pr → price_black = some pb →
      res.main_cost = some ((steps_from mst mt).map
        (fun st => min (pr / redOdds st.2) (pb / blackOdds st.2))).sum := by
  have hshape : res.main_cost =
      (mainPartOf price_red price_black (steps_from mst mt)).map Prod.fst := by
    by_cases hmt : mt = .Rare
    · unfold expected_potential_cost_dual at hok
      rw [if_pos hmt] at hok
      exact absurd hok (by simp)
    · by_cases hbt : bt = some .Rare
      · have herr : expected_potential_cost_dual price_red price_black
            price_bonus mt mst bt bst =
            .error "bonus_target_tier must be Epic / Unique / Legendary" := by
          unfold expected_potential_cost_dual
          rw [if_neg hmt, hbt]
          rfl
        rw [herr] at hok
        exact absurd hok (by simp)
      · rw [potential_dual_ok price_red price_black price_bonus mt mst bt bst
          hmt hbt] at hok
        injection hok with h
        rw [← h]
  refine ⟨?_, ?_⟩
  · rw [hshape]
    rcases price_red with _ | pr
    · simp [mainPartOf]
    · rcases price_black with _ | pb
      · simp [mainPartOf]
      · simp [mainPartOf]
  · intro pr pb hr hb2
    rw [hshape, hr, hb2]
    obtain ⟨h1, _⟩ := mainFold_spec pr pb (steps_from mst mt) (0, [])
    show some ((steps_from mst mt).foldl (mainStepFold pr pb) (0, [])).1 = _
    rw [h1, zero_add]

/-! ## Monotonicity machinery (C9)

Write row `s` of the built matrix as `Id - Q` with `Q` the (substochastic)
matrix of transition weights; a discrete maximum principle for `Id - Q` then
turns row-wise inequalities into sign information. -/

/-- The transition-weight part: `codeCoeff = (identity) - Qm`. -/
def Qm (table : List StarRow) (T s j : ℕ) : ℚ :=
  (if j = s then (Pfun table s).keep else 0)
  + (if s + 1 < T ∧ j = s + 1 then (Pfun table s).succ else 0)
  + (if 1 ≤ s ∧ j = s - 1 then (Pfun table s).drop else 0)
  + (if 10 < T ∧ j = 10 then (Pfun table s).boom else 0)

theorem codeCoeff_eq_sub (table : List StarRow) (T s j : ℕ) :
    codeCoeff table T s j = (if j = s then 1 else 0) - Qm table T s j := by
  unfold codeCoeff Qm
  split_ifs <;> ring

/-- Expansion of `∑ j < T, Qm s j * y j` into the four transition terms. -/
theorem Qm_dot (table : List StarRow) (T s : ℕ) (hs : s < T) (y : ℕ → ℚ) :
    (∑ j ∈ Finset.range T, Qm table T s j * y j) =
      (Pfun table s).keep * y s
      + (if s + 1 < T then (Pfun table s).succ * y (s + 1) else 0)
      + (if 1 ≤ s then (Pfun table s).drop * y (s - 1) else 0)
      + (if 10 < T then (Pfun table s).boom * y 10 else 0) := by
  unfold Qm
  have hsplit : ∀ j, j ∈ Finset.range T →
      ((if j = s then (Pfun table s).keep else 0)
        + (if s + 1 < T ∧ j = s + 1 then (Pfun table s).succ else 0)
        + (if 1 ≤ s ∧ j = s - 1 then (Pfun table s).drop else 0)
        + (if 10 < T ∧ j = 10 then (Pfun table s).boom else 0)) * y j =
      (if j = s then (Pfun table s).keep * y j else 0)
        + (if s + 1 < T ∧ j = s + 1 then (Pfun table s).succ * y j else 0)
        + (if 1 ≤ s ∧ j = s - 1 then (Pfun table s).drop * y j else 0)
        + (if 10 < T ∧ j = 10 then (Pfun table s).boom * y j else 0) := by
    intro j _
    split_ifs <;> ring
  rw [Finset.sum_congr rfl hsplit]
  rw [Finset.sum_add_distrib, Finset.sum_add_distrib, Finset.sum_add_distrib]
  have e1 : (∑ j ∈ Finset.range T,
      (if j = s then (Pfun table s).keep * y j else 0)) =
      (Pfun table s).keep * y s := by
    rw [Finset.sum_ite_eq' (Finset.range T) s (fun j => (Pfun table s).keep * y j),
      if_pos (Finset.mem_range.mpr hs)]
  have e2 : (∑ j ∈ Finset.range T,
      (if s + 1 < T ∧ j = s + 1 then (Pfun table s).succ * y j else 0)) =
      (if s + 1 < T then (Pfun table s).succ * y (s + 1) else 0) := by
    by_cases h : s + 1 < T
    · rw [if_pos h]
      have : ∀ j, j ∈ Finset.range T →
          (if s + 1 < T ∧ j = s + 1 then (Pfun table s).succ * y j else 0) =
          (if j = s + 1 then (Pfun table s).succ * y j else 0) := by
        intro j _
        by_cases h2 : j = s + 1
        · rw [if_pos ⟨h, h2⟩, if_pos h2]
        · rw [if_neg (fun hc => h2 hc.2), if_neg h2]
      rw [Finset.sum_congr rfl this,
        Finset.sum_ite_eq' (Finset.range T) (s + 1)
          (fun j => (Pfun table s).succ * y j),
        if_pos (Finset.mem_range.mpr h)]
    · rw [if_neg h]
      apply Finset.sum_eq_zero
      intro j _
      rw [if_neg (fun hc => h hc.1)]
  have e3 : (∑ j ∈ Finset.range T,
      (if 1 ≤ s ∧ j = s - 1 then (Pfun table s).drop * y j else 0)) =
      (if 1 ≤ s then (Pfun table s).drop * y (s - 1) else 0) := by
    by_cases h : 1 ≤ s
    · rw [if_pos h]
      have : ∀ j, j ∈ Finset.range T →
          (if 1 ≤ s ∧ j = s - 1 then (Pfun table s).drop * y j else 0) =
          (if j = s - 1 then (Pfun table s).drop * y j else 0) := by
        intro j _
        by_cases h2 : j = s - 1
        · rw [if_pos ⟨h, h2⟩, if_pos h2]
        · rw [if_neg (fun hc => h2 hc.2), if_neg h2]
      rw [Finset.sum_congr rfl this,
        Finset.sum_ite_eq' (Finset.range T) (s - 1)
          (fun j => (Pfun table s).drop * y j),
        if_pos (Finset.mem_range.mpr (by omega))]
    · rw [if_neg h]
      apply Finset.sum_eq_zero
      intro j _
      rw [if_neg (fun hc => h hc.1)]
  have e4 : (∑ j ∈ Finset.range T,
      (if 10 < T ∧ j = 10 then (Pfun table s).boom * y j else 0)) =
      (if 10 < T then (Pfun table s).boom * y 10 else 0) := by
    by_cases h : 10 < T
    · rw [if_pos h]
      have : ∀ j, j ∈ Finset.range T →
          (if 10 < T ∧ j = 10 then (Pfun table s).boom * y j else 0) =
          (if j = 10 then (Pfun table s).boom * y j else 0) := by
        intro j _
        by_cases h2 : j = 10
        · rw [if_pos ⟨h, h2⟩, if_pos h2]
        · rw [if_neg (fun hc => h2 hc.2), if_neg h2]
      rw [Finset.sum_congr rfl this,
        Finset.sum_ite_eq' (Finset.range T) 10
          (fun j => (Pfun table s).boom * y j),
        if_pos (Finset.mem_range.mpr h)]
    · rw [if_neg h]
      apply Finset.sum_eq_zero
      intro j _
      rw [if_neg (fun hc => h hc.1)]
  rw [e1, e2, e3, e4]

/-- Row equations in `Id - Q` form. -/
theorem sum_codeCoeff_split (table : List StarRow) (T s : ℕ) (hs : s < T)
    (y : ℕ → ℚ) :
    (∑ j ∈ Finset.range T, codeCoeff table T s j * y j) =
      y s - (∑ j ∈ Finset.range T, Qm table T s j * y j) := by
  have hsplit : ∀ j, j ∈ Finset.range T →
      codeCoeff table T s j * y j =
        (if j = s then y j else 0) - Qm table T s j * y j := by
    intro j _
    rw [codeCoeff_eq_sub]
    by_cases h : j = s
    · rw [if_pos h, if_pos h]
      ring
    · rw [if_neg h, if_neg h]
      ring
  rw [Finset.sum_congr rfl hsplit, Finset.sum_sub_distrib,
    Finset.sum_ite_eq' (Finset.range T) s y, if_pos (Finset.mem_range.mpr hs)]

/-- Discrete maximum principle: if `Q` is entrywise nonnegative with row sums
at most 1, a strictly positive weight one step up from every level, and a
strictly substochastic top row, then `(Id - Q)·y ≥ 0` forces `y ≥ 0`. -/
theorem maxPrinciple (n : ℕ) (Q : ℕ → ℕ → ℚ) (y : ℕ → ℚ)
    (hn : 0 < n)
    (hQ0 : ∀ s j, s < n → j < n → 0 ≤ Q s j)
    (hrow : ∀ s, s < n → (∑ j ∈ Finset.range n, Q s j) ≤ 1)
    (hup : ∀ s, s + 1 < n → 0 < Q s (s + 1))
    (htop : (∑ j ∈ Finset.range n, Q (n - 1) j) < 1)
    (hy : ∀ s, s < n → (∑ j ∈ Finset.range n, Q s j * y j) ≤ y s) :
    ∀ s, s < n → 0 ≤ y s := by
  by_contra hcon
  push_neg at hcon
  obtain ⟨s0, hs0, hs0neg⟩ := hcon
  obtain ⟨m, hmmem, hmmin⟩ :=
    Finset.exists_min_image (Finset.range n) y ⟨s0, Finset.mem_range.mpr hs0⟩
  have hmn : m < n := Finset.mem_range.mp hmmem
  have hym : y m < 0 :=
    lt_of_le_of_lt (hmmin s0 (Finset.mem_range.mpr hs0)) hs0neg
  have hdecomp : ∀ s, s < n → (∑ j ∈ Finset.range n, Q s j * y j) =
      (∑ j ∈ Finset.range n, Q s j * (y j - y m)) +
        (∑ j ∈ Finset.range n, Q s j) * y m := by
    intro s _
    rw [Finset.sum_mul, ← Finset.sum_add_distrib]
    apply Finset.sum_congr rfl
    intro j _
    ring
  have hterm0 : ∀ s, s < n → ∀ j ∈ Finset.range n, 0 ≤ Q s j * (y j - y m) := by
    intro s hs j hj
    apply mul_nonneg (hQ0 s j hs (Finset.mem_range.mp hj))
    have := hmmin j hj
    linarith
  have hpropagate : ∀ k, m ≤ k → k < n → y k = y m := by
    intro k
    induction k with
    | zero =>
      intro h1 _
      have hm0 : m = 0 := Nat.le_zero.mp h1
      rw [hm0]
    | succ k ih =>
      intro h1 h2
      by_cases hmk : m = k + 1
      · rw [hmk]
      · have hkn : k < n := by omega
        have hyk : y k = y m := ih (by omega) hkn
        have hineq := hy k hkn
        rw [hdecomp k hkn, hyk] at hineq
        have hsum_nonneg : 0 ≤ ∑ j ∈ Finset.range n, Q k j * (y j - y m) :=
          Finset.sum_nonneg (hterm0 k hkn)
        have hrowk := hrow k hkn
        have hge : y m ≤ (∑ j ∈ Finset.range n, Q k j) * y m := by
          nlinarith [mul_nonneg (sub_nonneg.mpr hrowk)
            (neg_nonneg.mpr (le_of_lt hym))]
        have hzero : (∑ j ∈ Finset.range n, Q k j * (y j - y m)) = 0 :=
          le_antisymm (by linarith) hsum_nonneg
        have hall := (Finset.sum_eq_zero_iff_of_nonneg (hterm0 k hkn)).mp hzero
        have hterm := hall (k + 1) (Finset.mem_range.mpr h2)
        have hQpos := hup k h2
        rcases mul_eq_zero.mp hterm with hq | hd
        · exact absurd hq (ne_of_gt hQpos)
        · have := sub_eq_zero.mp hd
          exact this
  have htopeq : y (n - 1) = y m := hpropagate (n - 1) (by omega) (by omega)
  have hineq := hy (n - 1) (by omega)
  rw [hdecomp (n - 1) (by omega), htopeq] at hineq
  have hsum_nonneg : 0 ≤ ∑ j ∈ Finset.range n, Q (n - 1) j * (y j - y m) :=
    Finset.sum_nonneg (hterm0 (n - 1) (by omega))
  nlinarith [mul_pos (sub_pos.mpr htop) (neg_pos.mpr hym), hsum_nonneg]

/-- The claim's "increase `succeed`" move, in the only reading compatible
with the table's sum-to-one invariant: `succeed` grows by `δ` and `stay`
shrinks by `δ` at one level, everything else unchanged. -/
def shiftSucc (t : List StarRow) (l : ℕ) (δ : ℚ) : List StarRow :=
  t.set l ⟨(t.getD l zeroRow).succ + δ, (t.getD l zeroRow).keep - δ,
    (t.getD l zeroRow).drop, (t.getD l zeroRow).boom⟩

/-- The claim's literal reading, used by the counterexample: `succeed` grows
by `δ` at one level and nothing else changes. -/
def bumpSucc (t : List StarRow) (l : ℕ) (δ : ℚ) : List StarRow :=
  t.set l ⟨(t.getD l zeroRow).succ + δ, (t.getD l zeroRow).keep,
    (t.getD l zeroRow).drop, (t.getD l zeroRow).boom⟩

theorem Pfun_STAR (s : ℕ) (hs : s < 25) :
    Pfun STAR_PROBS s = STAR_PROBS.getD s zeroRow := by
  unfold Pfun
  rw [if_pos (by rw [STAR_PROBS_length]; exact hs)]

theorem Pfun_shiftSucc (l : ℕ) (hl : l < 25) (δ : ℚ) (s : ℕ) (hs : s < 25) :
    Pfun (shiftSucc STAR_PROBS l δ) s =
      if s = l then
        ⟨(STAR_PROBS.getD l zeroRow).succ + δ,
         (STAR_PROBS.getD l zeroRow).keep - δ,
         (STAR_PROBS.getD l zeroRow).drop,
         (STAR_PROBS.getD l zeroRow).boom⟩
      else STAR_PROBS.getD s zeroRow := by
  unfold Pfun shiftSucc
  rw [List.length_set, getD_set]
  rw [if_pos (by rw [STAR_PROBS_length]; exact hs)]
  by_cases h : s = l
  · rw [if_pos ⟨h.symm, by rw [STAR_PROBS_length]; omega⟩, if_pos h]
  · rw [if_neg (fun hc => h hc.1.symm), if_neg h]

section TableFacts

attribute [local semireducible] Rat.mul Rat.inv Rat.add Rat.sub

/-- Every row of the fixed table: strictly positive success, nonnegative
fields, and total probability at most 1 (row 13 sums to 0.9999 < 1). -/
theorem star_rows_ok : ∀ i, i < 25 →
    0 < (STAR_PROBS.getD i zeroRow).succ ∧
    0 ≤ (STAR_PROBS.getD i zeroRow).keep ∧
    0 ≤ (STAR_PROBS.getD i zeroRow).drop ∧
    0 ≤ (STAR_PROBS.getD i zeroRow).boom ∧
    (STAR_PROBS.getD i zeroRow).succ + (STAR_PROBS.getD i zeroRow).keep +
      (STAR_PROBS.getD i zeroRow).drop + (STAR_PROBS.getD i zeroRow).boom
      ≤ 1 := by decide

/-- Rows at and below the anchor level: no regress, no reset, and
`succeed + stay = 1` exactly. -/
theorem star_rows_low : ∀ i, i < 11 →
    (STAR_PROBS.getD i zeroRow).drop = 0 ∧
    (STAR_PROBS.getD i zeroRow).boom = 0 ∧
    (STAR_PROBS.getD i zeroRow).succ + (STAR_PROBS.getD i zeroRow).keep
      = 1 := by decide

end TableFacts

/-- Rows of a successful solve, in `Id - Q` form. -/
theorem star_row_equations (table : List StarRow) (prices : ℕ → Option ℚ)
    (T : ℕ) (E : List ℚ)
    (hsolve : solve_linear_system (buildA table T) (buildB T prices) = some E) :
    ∀ s, s < T →
      E.getD s 0 - (∑ j ∈ Finset.range T, Qm table T s j * E.getD j 0) =
        (prices s).getD 0 := by
  obtain ⟨_, hsat⟩ := solve_some_sat (buildA table T) (buildB T prices) E
    (buildA_rows table T) (by rw [buildB_length, buildA_length]) hsolve
  intro s hs
  have h := hsat s (by rw [buildA_length]; exact hs)
  rw [buildA_length] at h
  rw [buildB_getD T prices s hs] at h
  have h2 : (∑ j ∈ Finset.range T, codeCoeff table T s j * E.getD j 0) =
      (prices s).getD 0 := by
    rw [← h]
    apply Finset.sum_congr rfl
    intro j hj
    rw [buildA_entry table T s j hs (Finset.mem_range.mp hj)]
  have h3 := sum_codeCoeff_split table T s hs (fun j => E.getD j 0)
  simp only [] at h3
  linarith [h2, h3]

theorem StarRow_mk_succ (a b c d : ℚ) : (StarRow.mk a b c d).succ = a := rfl

theorem StarRow_mk_keep (a b c d : ℚ) : (StarRow.mk a b c d).keep = b := rfl

theorem StarRow_mk_drop (a b c d : ℚ) : (StarRow.mk a b c d).drop = c := rfl

theorem StarRow_mk_boom (a b c d : ℚ) : (StarRow.mk a b c d).boom = d := rfl

/-- Fields of the shifted table, row by row. -/
theorem shiftSucc_fields (l : ℕ) (hl : l < 25) (δ : ℚ) (hd0 : 0 ≤ δ)
    (hdk : δ ≤ (STAR_PROBS.getD l zeroRow).keep) (s : ℕ) (hs : s < 25) :
    0 < (Pfun (shiftSucc STAR_PROBS l δ) s).succ ∧
    0 ≤ (Pfun (shiftSucc STAR_PROBS l δ) s).keep ∧
    0 ≤ (Pfun (shiftSucc STAR_PROBS l δ) s).drop ∧
    0 ≤ (Pfun (shiftSucc STAR_PROBS l δ) s).boom ∧
    (Pfun (shiftSucc STAR_PROBS l δ) s).succ +
      (Pfun (shiftSucc STAR_PROBS l δ) s).keep +
      (Pfun (shiftSucc STAR_PROBS l δ) s).drop +
      (Pfun (shiftSucc STAR_PROBS l δ) s).boom ≤ 1 := by
  rw [Pfun_shiftSucc l hl δ s hs]
  by_cases h : s = l
  · rw [if_pos h]
    obtain ⟨a1, a2, a3, a4, a5⟩ := star_rows_ok l hl
    simp only [StarRow_mk_succ, StarRow_mk_keep, StarRow_mk_drop,
      StarRow_mk_boom]
    exact ⟨by linarith, by linarith, a3, a4, by linarith⟩
  · rw [if_neg h]
    exact star_rows_ok s hs

/-- The weighted row sum of the shifted table, row `l`, against the base. -/
theorem shiftSucc_row_l (l : ℕ) (δ : ℚ) (T : ℕ) (hT2 : T ≤ 25)
    (hlT : l < T) (v : ℕ → ℚ) :
    (∑ j ∈ Finset.range T, Qm (shiftSucc STAR_PROBS l δ) T l j * v j) =
      (∑ j ∈ Finset.range T, Qm STAR_PROBS T l j * v j) - δ * v l +
        (if l + 1 < T then δ * v (l + 1) else 0) := by
  rw [Qm_dot (shiftSucc STAR_PROBS l δ) T l hlT v, Qm_dot STAR_PROBS T l hlT v,
    Pfun_shiftSucc l (by omega) δ l (by omega), if_pos rfl,
    Pfun_STAR l (by omega)]
  simp only [StarRow_mk_succ, StarRow_mk_keep, StarRow_mk_drop,
    StarRow_mk_boom]
  by_cases h2 : l + 1 < T
  · rw [if_pos h2, if_pos h2, if_pos h2]
    split_ifs <;> ring
  · rw [if_neg h2, if_neg h2, if_neg h2]
    split_ifs <;> ring

/-- Rows other than `l` are untouched by the shift. -/
theorem shiftSucc_row_other (l : ℕ) (hl : l < 25) (δ : ℚ) (T : ℕ)
    (hT2 : T ≤ 25) (s : ℕ) (hs : s < T) (hsl : s ≠ l) (j : ℕ) :
    Qm (shiftSucc STAR_PROBS l δ) T s j = Qm STAR_PROBS T s j := by
  unfold Qm
  rw [Pfun_shiftSucc l hl δ s (by omega), if_neg hsl, Pfun_STAR s (by omega)]

/-- C9 (amended): over the fixed table, increasing `succeed` at a level
`l ≤ 10` (the anchor) while decreasing `stay` by the same amount — the only
reading compatible with the row sum-to-one invariant — with nonnegative
prices, never increases any per-level expected cost, in particular not the
cost from the modified level or any lower start. -/
theorem claim_C9_amended (T : ℕ) (hT2 : T ≤ 25)
    (prices : ℕ → Option ℚ)
    (hpos : ∀ s, s < T → 0 ≤ (prices s).getD 0)
    (l : ℕ) (hl : l ≤ 10) (δ : ℚ) (hd0 : 0 ≤ δ)
    (hdk : δ ≤ (STAR_PROBS.getD l zeroRow).keep)
    (start : ℤ) (res res' : StarCostResult)
    (hbase : expected_star_cost prices T start = .ok res)
    (hmod : expected_star_cost_table (shiftSucc STAR_PROBS l δ) prices T start
      = .ok res') :
    (∀ s, s < T → res'.E.getD s 0 ≤ res.E.getD s 0) ∧
    res'.expected_cost_from_0 ≤ res.expected_cost_from_0 := by
  obtain ⟨hT1, _, hsolve, hfrom0, _⟩ :=
    expected_star_cost_table_ok_inv STAR_PROBS prices T start res hbase
  obtain ⟨_, _, hsolve', hfrom0', _⟩ :=
    expected_star_cost_table_ok_inv (shiftSucc STAR_PROBS l δ) prices T start
      res' hmod
  have heq := star_row_equations STAR_PROBS prices T res.E hsolve
  have heq' := star_row_equations (shiftSucc STAR_PROBS l δ) prices T res'.E
    hsolve'
  have hl25 : l < 25 := by omega
  have hfield := fun s (hs : s < T) =>
    shiftSucc_fields l hl25 δ hd0 hdk s (by omega)
  -- maximum-principle hypotheses for the shifted table
  have hQ0 : ∀ s j, s < T → j < T →
      0 ≤ Qm (shiftSucc STAR_PROBS l δ) T s j := by
    intro s j hs _
    obtain ⟨a1, a2, a3, a4, _⟩ := hfield s hs
    unfold Qm
    split_ifs <;> linarith
  have hrow : ∀ s, s < T →
      (∑ j ∈ Finset.range T, Qm (shiftSucc STAR_PROBS l δ) T s j) ≤ 1 := by
    intro s hs
    have hd := Qm_dot (shiftSucc STAR_PROBS l δ) T s hs (fun _ => 1)
    simp only [mul_one] at hd
    rw [hd]
    obtain ⟨a1, a2, a3, a4, a5⟩ := hfield s hs
    split_ifs <;> linarith
  have hup : ∀ s, s + 1 < T →
      0 < Qm (shiftSucc STAR_PROBS l δ) T s (s + 1) := by
    intro s h
    obtain ⟨a1, _, _, a4, _⟩ := hfield s (by omega)
    unfold Qm
    rw [if_neg (show ¬(s + 1 = s) by omega), if_pos ⟨h, rfl⟩,
      if_neg (show ¬(1 ≤ s ∧ s + 1 = s - 1) by omega)]
    by_cases hb : 10 < T ∧ s + 1 = 10
    · rw [if_pos hb]
      linarith
    · rw [if_neg hb]
      linarith
  have htop :
      (∑ j ∈ Finset.range T, Qm (shiftSucc STAR_PROBS l δ) T (T - 1) j)
        < 1 := by
    have hs : T - 1 < T := by omega
    have hd := Qm_dot (shiftSucc STAR_PROBS l δ) T (T - 1) hs (fun _ => 1)
    simp only [mul_one] at hd
    rw [hd]
    obtain ⟨a1, a2, a3, a4, a5⟩ := hfield (T - 1) hs
    rw [if_neg (show ¬(T - 1 + 1 < T) by omega)]
    split_ifs <;> linarith
  -- the row-wise inequalities for the difference vector
  have hy : ∀ s, s < T →
      (∑ j ∈ Finset.range T, Qm (shiftSucc STAR_PROBS l δ) T s j *
        (res.E.getD j 0 - res'.E.getD j 0)) ≤
      res.E.getD s 0 - res'.E.getD s 0 := by
    intro s hs
    have hsub : (∑ j ∈ Finset.range T, Qm (shiftSucc STAR_PROBS l δ) T s j *
        (res.E.getD j 0 - res'.E.getD j 0)) =
        (∑ j ∈ Finset.range T, Qm (shiftSucc STAR_PROBS l δ) T s j *
          res.E.getD j 0) -
        (∑ j ∈ Finset.range T, Qm (shiftSucc STAR_PROBS l δ) T s j *
          res'.E.getD j 0) := by
      rw [← Finset.sum_sub_distrib]
      apply Finset.sum_congr rfl
      intro j _
      ring
    by_cases hsl : s = l
    · subst hsl
      have hrelx := shiftSucc_row_l s δ T hT2 hs (fun j => res.E.getD j 0)
      simp only [] at hrelx
      have h1 := heq s hs
      have h2 := heq' s hs
      -- z = E[l] - E[l+1] (or E[l] at the top) is nonnegative
      have hlow := star_rows_low s (by omega)
      have hQx := Qm_dot STAR_PROBS T s hs (fun j => res.E.getD j 0)
      simp only [] at hQx
      rw [Pfun_STAR s (by omega)] at hQx
      rw [hlow.1, hlow.2.1] at hQx
      simp only [zero_mul, ite_self, add_zero] at hQx
      have hsucc : 0 < (STAR_PROBS.getD s zeroRow).succ :=
        (star_rows_ok s (by omega)).1
      have hkeep : (STAR_PROBS.getD s zeroRow).succ +
          (STAR_PROBS.getD s zeroRow).keep = 1 := hlow.2.2
      have hp := hpos s hs
      have hz : 0 ≤ res.E.getD s 0 -
          (if s + 1 < T then res.E.getD (s + 1) 0 else 0) := by
        rw [hQx] at h1
        have hkx : (STAR_PROBS.getD s zeroRow).succ * res.E.getD s 0 +
            (STAR_PROBS.getD s zeroRow).keep * res.E.getD s 0 =
            res.E.getD s 0 := by
          have h5 := congrArg (· * res.E.getD s 0) hkeep
          simpa [add_mul] using h5
        by_cases hLT : s + 1 < T
        · rw [if_pos hLT] at h1 ⊢
          nlinarith [h1, hp, hkx, hsucc]
        · rw [if_neg hLT] at h1 ⊢
          nlinarith [h1, hp, hkx, hsucc]
      have hrelx' := shiftSucc_row_l s δ T hT2 hs (fun j => res'.E.getD j 0)
      simp only [] at hrelx'
      rw [hsub, hrelx, hrelx']
      rw [hrelx'] at h2
      have hdz := mul_nonneg hd0 hz
      by_cases hLT : s + 1 < T
      · simp only [if_pos hLT] at h2 hdz ⊢
        linarith [h1, h2, hdz]
      · simp only [if_neg hLT] at h2 hdz ⊢
        linarith [h1, h2, hdz]
    · have hQsame := fun j =>
        shiftSucc_row_other l hl25 δ T hT2 s hs hsl j
      have h1 := heq s hs
      have h2 := heq' s hs
      have hxq : (∑ j ∈ Finset.range T, Qm (shiftSucc STAR_PROBS l δ) T s j *
          res.E.getD j 0) =
          (∑ j ∈ Finset.range T, Qm STAR_PROBS T s j * res.E.getD j 0) := by
        apply Finset.sum_congr rfl
        intro j _
        rw [hQsame j]
      have hxq' : (∑ j ∈ Finset.range T, Qm (shiftSucc STAR_PROBS l δ) T s j *
          res'.E.getD j 0) =
          (∑ j ∈ Finset.range T, Qm STAR_PROBS T s j * res'.E.getD j 0) := by
        apply Finset.sum_congr rfl
        intro j _
        rw [hQsame j]
      rw [hsub, hxq, hxq']
      rw [hxq'] at h2
      linarith [h1, h2]
  -- apply the maximum principle to the difference vector
  have hmain := maxPrinciple T (Qm (shiftSucc STAR_PROBS l δ) T)
    (fun j => res.E.getD j 0 - res'.E.getD j 0) (by omega) hQ0 hrow hup htop
    (by
      intro s hs
      have := hy s hs
      simpa using this)
  have hdom : ∀ s, s < T → res'.E.getD s 0 ≤ res.E.getD s 0 := by
    intro s hs
    have := hmain s hs
    simp only [] at this
    linarith
  refine ⟨hdom, ?_⟩
  rw [hfrom0, hfrom0']
  exact hdom 0 (by omega)

/-- Cost-from-start of a run, for stating concrete comparisons. -/
def fromStartOf (e : Except StarErr StarCostResult) : WithTop ℚ :=
  match e with
  | .ok r => r.expected_cost_from_start
  | .error _ => ⊤

/-- A price map with every level at 100. -/
def constPrices100 : ℕ → Option ℚ := fun _ => some 100

/-- A price map missing exactly level 5. -/
def missingAt5 : ℕ → Option ℚ := fun s => if s = 5 then none else some 1

section Witnesses

attribute [local semireducible] Rat.mul Rat.inv Rat.add Rat.sub

set_option maxRecDepth 8000

/-- C9 counterexample: the claim under its literal reading — raise `succeed`
at level 0 by 1/1000, leaving `stay`, `regress`, `reset` untouched — strictly
*increases* the expected cost from start 0 for target 2 at prices 100. -/
theorem claim_C9_counterexample :
    fromStartOf (expected_star_cost_table STAR_PROBS constPrices100 2 0) <
      fromStartOf (expected_star_cost_table (bumpSucc STAR_PROBS 0 (1/1000))
        constPrices100 2 0) := by decide

/-- Witness for C2 at `A = [[2]]`, `b = [6]` (solution `x = [3]`). -/
theorem claim_C2_witness :
    ((∀ r ∈ ([[(2:ℚ)]] : Mat), r.length = ([[(2:ℚ)]] : Mat).length) ∧
      ([(6:ℚ)] : List ℚ).length = ([[(2:ℚ)]] : Mat).length) ∧
    ((solveFails [[(2:ℚ)]] [(6:ℚ)] = false →
      ∃ x, solve_linear_system [[(2:ℚ)]] [(6:ℚ)] = some x ∧
        ∀ i, i < ([[(2:ℚ)]] : Mat).length →
          (∑ j ∈ Finset.range ([[(2:ℚ)]] : Mat).length,
            entry [[(2:ℚ)]] i j * x.getD j 0) = ([(6:ℚ)] : List ℚ).getD i 0) ∧
      (solveFails [[(2:ℚ)]] [(6:ℚ)] = true →
        solve_linear_system [[(2:ℚ)]] [(6:ℚ)] = none)) ∧
    solve_linear_system [[(2:ℚ)]] [(6:ℚ)] = some [3] :=
  ⟨⟨by decide, by decide⟩,
    claim_C2_solver_correct [[(2:ℚ)]] [(6:ℚ)] (by decide) (by decide),
    by decide⟩

/-- Witness for C3 at target 2, prices 100, start 0. -/
theorem claim_C3_witness :
    ((1:ℕ) ≤ 2 ∧ (2:ℕ) ≤ 25 ∧
      (∀ s, s < 2 → (constPrices100 s).isSome = true)) ∧
    (solveFails (buildA STAR_PROBS 2) (buildB 2 constPrices100) = false ∧
      expected_star_cost constPrices100 2 0 ≠ .error .numericalInstability) :=
  ⟨⟨by omega, by omega, by decide⟩,
    claim_C3_no_instability 2 (by omega) (by omega) constPrices100
      (by decide) 0⟩

/-- Witness for C4: target 10 with only level 5 missing reports exactly
`[5]`. -/
theorem claim_C4_witness :
    ((1:ℕ) ≤ 10 ∧ (10:ℕ) ≤ 25 ∧ (∃ s, s < 10 ∧ missingAt5 s = none)) ∧
    (∃ L, expected_star_cost missingAt5 10 0 = .error (.missingPrice L) ∧
      ∀ s, s ∈ L ↔ (s < 10 ∧ missingAt5 s = none)) ∧
    expected_star_cost missingAt5 10 0 = .error (.missingPrice [5]) :=
  ⟨⟨by omega, by omega, ⟨5, by omega, rfl⟩⟩,
    claim_C4_missing_price 10 (by omega) (by omega) missingAt5 0
      ⟨5, by omega, rfl⟩,
    rfl⟩

/-- Witness for C8 at level 5. -/
theorem claim_C8_witness :
    (5:ℕ) < 10 ∧ (STAR_PROBS.getD 5 zeroRow).boom = 0 :=
  ⟨by omega, claim_C8_reset_zero_below_anchor 5 (by omega)⟩

/-- Witness for C1 at target 1, prices 100, start 0. -/
theorem claim_C1_witness :
    ((1:ℕ) ≤ 1 ∧ (1:ℕ) ≤ 25 ∧
      (∀ s, s < 1 → (constPrices100 s).isSome = true)) ∧
    ((∀ s j, s < 1 → j < 1 →
      entry (buildA STAR_PROBS 1) s j = specCoeff STAR_PROBS 1 s j) ∧
    ∃ res, expected_star_cost constPrices100 1 0 = .ok res ∧
      res.E.length = 1 ∧
      (∀ s, s < 1 →
        (∑ j ∈ Finset.range 1, specCoeff STAR_PROBS 1 s j * res.E.getD j 0) =
          (constPrices100 s).getD 0) ∧
      (∀ y, y.length = 1 →
        (∀ s, s < 1 →
          (∑ j ∈ Finset.range 1, specCoeff STAR_PROBS 1 s j * y.getD j 0) =
            (constPrices100 s).getD 0) →
        y = res.E)) :=
  ⟨⟨by omega, by omega, by decide⟩,
    claim_C1_system 1 (by omega) (by omega) constPrices100 (by decide) 0⟩

/-- Witness for C10 at target 2, prices 100, start -3 against start 1. -/
theorem claim_C10_witness :
    ((1:ℕ) ≤ 2 ∧ (2:ℕ) ≤ 25 ∧
      (∀ s, s < 2 → (constPrices100 s).isSome = true) ∧
      ((-3:ℤ) < 0) ∧ ((0:ℤ) ≤ 1)) ∧
    (∃ res res', expected_star_cost constPrices100 2 (-3) = .ok res ∧
      expected_star_cost constPrices100 2 1 = .ok res' ∧
      res.expected_cost_from_start = (⊤ : WithTop ℚ) ∧
      res.E = res'.E ∧
      res.expected_cost_from_0 = res'.expected_cost_from_0) :=
  ⟨⟨by omega, by omega, by decide, by decide, by decide⟩,
    claim_C10_negative_start 2 (by omega) (by omega) constPrices100
      (by decide) (-3) (by decide) 1 (by decide)⟩

/-- Witness for C5 (amended): each of the three boundary facts at a concrete
instance. -/
theorem claim_C5_amended_witness :
    ((1:ℕ) ≤ 1 ∧ (1:ℕ) ≤ 25 ∧
      (∀ s, s < 1 → (constPrices100 s).isSome = true) ∧ ((1:ℤ) ≤ 3) ∧
      Tier.Epic ≠ Tier.Rare ∧ Tier.Epic.idx ≤ Tier.Unique.idx ∧
      (none : Option Tier) ≠ some Tier.Rare ∧
      Tier.Epic.idx ≤ Tier.Unique.idx) ∧
    (∃ res, expected_star_cost constPrices100 1 3 = .ok res ∧
      res.expected_cost_from_start = ((0 : ℚ) : WithTop ℚ)) ∧
    (∃ res, expected_potential_cost_dual (some 1000) (some 500) none
        Tier.Epic Tier.Unique none Tier.Rare = .ok res ∧
      res.main_cost = some 0 ∧ res.main_breakdown = some []) ∧
    (∃ res, expected_potential_cost_dual none none (some 700) Tier.Epic
        Tier.Rare (some Tier.Epic) Tier.Unique = .ok res ∧
      res.bonus_cost = some 0 ∧ res.bonus_breakdown = some []) :=
  ⟨⟨by omega, by omega, by decide, by decide, by decide, by decide,
      by decide, by decide⟩,
    claim_C5_amended.1 constPrices100 1 3 (by omega) (by omega) (by decide)
      (by decide),
    claim_C5_amended.2.1 1000 500 none .Epic .Unique .Rare none (by decide)
      (by decide) (by decide),
    claim_C5_amended.2.2 none none 700 .Epic .Rare .Unique .Epic (by decide)
      (by decide) (by decide)⟩

/-- Witness for C6: the spec's example — one step, red 1000 at 6%, black 500
at 15% — picks the black tool at cost 10000/3 ≈ 3333.33. -/
theorem claim_C6_witness :
    (Tier.Rare.idx < Tier.Epic.idx ∧ (none : Option Tier) ≠ some Tier.Rare) ∧
    (∃ res, expected_potential_cost_dual (some 1000) (some 500) none Tier.Epic
        Tier.Rare none Tier.Rare = .ok res ∧
      res.main_cost = some ((steps_from Tier.Rare Tier.Epic).map
        (fun st => min ((1000:ℚ) / redOdds st.2)
          ((500:ℚ) / blackOdds st.2))).sum ∧
      res.main_breakdown = some ((steps_from Tier.Rare Tier.Epic).map
        (fun st =>
          if (1000:ℚ) / redOdds st.2 ≤ (500:ℚ) / blackOdds st.2 then
            (st, (1000:ℚ), redOdds st.2)
          else (st, (500:ℚ), blackOdds st.2)))) ∧
    ((steps_from Tier.Rare Tier.Epic).map
      (fun st => min ((1000:ℚ) / redOdds st.2)
        ((500:ℚ) / blackOdds st.2))).sum = 10000/3 ∧
    ((steps_from Tier.Rare Tier.Epic).map (fun st =>
      if (1000:ℚ) / redOdds st.2 ≤ (500:ℚ) / blackOdds st.2 then
        (st, (1000:ℚ), redOdds st.2)
      else (st, (500:ℚ), blackOdds st.2))) =
      [((Tier.Rare, Tier.Epic), 500, 3/20)] :=
  ⟨⟨by decide, by decide⟩,
    claim_C6_main_cheaper_per_step 1000 500 .Rare .Epic (by decide) none none
      .Rare (by decide),
    by decide, by decide⟩

/-- Witness for C7: red price missing at a one-step ladder gives main cost
`none`. -/
theorem claim_C7_witness :
    (expected_potential_cost_dual none (some 1) none Tier.Epic Tier.Rare none
      Tier.Rare =
      .ok ⟨Tier.Rare, Tier.Epic, none, none, none, none, none, none⟩) ∧
    (((⟨Tier.Rare, Tier.Epic, none, none, none, none, none,
        none⟩ : PotentialDualResult).main_cost = none ↔
      ((none : Option ℚ) = none ∨ (some (1:ℚ)) = none)) ∧
    ∀ pr pb, (none : Option ℚ) = some pr → (some (1:ℚ)) = some pb →
      (⟨Tier.Rare, Tier.Epic, none, none, none, none, none,
        none⟩ : PotentialDualResult).main_cost =
        some ((steps_from Tier.Rare Tier.Epic).map
          (fun st => min (pr / redOdds st.2) (pb / blackOdds st.2))).sum) :=
  ⟨rfl,
    claim_C7_main_none_iff none (some 1) none .Epic .Rare none .Rare
      ⟨Tier.Rare, Tier.Epic, none, none, none, none, none, none⟩ rfl⟩

/-- Witness for C9 (amended) at target 2, level 0, `δ = 1/1000`, prices 100,
start 0. -/
theorem claim_C9_amended_witness :
    ((2:ℕ) ≤ 25 ∧ (∀ s, s < 2 → 0 ≤ (constPrices100 s).getD 0) ∧
      (0:ℕ) ≤ 10 ∧ (0:ℚ) ≤ 1/1000 ∧
      (1/1000 : ℚ) ≤ (STAR_PROBS.getD 0 zeroRow).keep) ∧
    (∃ res res', expected_star_cost constPrices100 2 0 = .ok res ∧
      expected_star_cost_table (shiftSucc STAR_PROBS 0 (1/1000))
        constPrices100 2 0 = .ok res' ∧
      (∀ s, s < 2 → res'.E.getD s 0 ≤ res.E.getD s 0) ∧
      res'.expected_cost_from_0 ≤ res.expected_cost_from_0) := by
  refine ⟨⟨by omega, by decide, by omega, by decide, by decide⟩, ?_⟩
  obtain ⟨res, hres, _⟩ :=
    expected_star_cost_table_ok STAR_PROBS constPrices100 2 0 (by omega)
      (by omega) (by decide) (by decide)
  obtain ⟨res', hres', _⟩ :=
    expected_star_cost_table_ok (shiftSucc STAR_PROBS 0 (1/1000))
      constPrices100 2 0 (by omega) (by omega) (by decide) (by decide)
  have hmain := claim_C9_amended 2 (by omega) constPrices100 (by decide) 0
    (by omega) (1/1000) (by decide) (by decide) 0 res res' hres hres'
  exact ⟨res, res', hres, hres', hmain.1, hmain.2⟩

end Witnesses
